import Mathlib

/-!
Verification development for the worktree module (`src/zed/src/worktree/worktree.rs`).

The Rust module maintains an in-memory mirror of a directory subtree: a map
from inode numbers to `Entry` records (directories and files), a flat list of
per-file search records, a scan-state flag, and operations to resolve paths,
save file contents, and feed a fuzzy matcher.  Paths are modelled as lists of
components (`List String`), the `HashMap<u64, Entry>` as an association list
with insert-replaces-key semantics, and machine integers as `Nat` (no
arithmetic in the source ever overflows: inode numbers and counts are used
as opaque identifiers).
-/

namespace Worktree

/-- Mirrors `enum Entry` from the source: a directory record carries an
optional parent id, a name, its inode, symlink and ignored flags and a list
of child ids; a file record carries the same minus the children. -/
inductive Entry where
  | dir (parent : Option Nat) (name : String) (ino : Nat)
      (isSymlink : Bool) (isIgnored : Bool) (children : List Nat)
  | file (parent : Option Nat) (name : String) (ino : Nat)
      (isSymlink : Bool) (isIgnored : Bool)
deriving DecidableEq, Repr

/-- Mirrors `Entry::parent`. -/
def Entry.parent : Entry → Option Nat
  | .dir p _ _ _ _ _ => p
  | .file p _ _ _ _ => p

/-- Mirrors `Entry::name` (names are modelled as `String`, the source's
`to_string_lossy` view of an `OsString`). -/
def Entry.name : Entry → String
  | .dir _ n _ _ _ _ => n
  | .file _ n _ _ _ => n

/-- Mirrors `Entry::ino`. -/
def Entry.ino : Entry → Nat
  | .dir _ _ i _ _ _ => i
  | .file _ _ i _ _ => i

/-- The `is_ignored` field of either variant. -/
def Entry.ignored : Entry → Bool
  | .dir _ _ _ _ ig _ => ig
  | .file _ _ _ _ ig => ig

/-- True exactly for the `Dir` variant. -/
def Entry.isDir : Entry → Bool
  | .dir _ _ _ _ _ _ => true
  | .file _ _ _ _ _ => false

/-- The children list of a directory entry (empty for files). -/
def Entry.childList : Entry → List Nat
  | .dir _ _ _ _ _ cs => cs
  | .file _ _ _ _ _ => []

/-- The entry map `HashMap<u64, Entry>`, as an association list whose insert
replaces any existing binding of the key. -/
abbrev EntryMap := List (Nat × Entry)

/-- Lookup in the entry map (`entries.get(&k)`). -/
def emLookup (k : Nat) : EntryMap → Option Entry
  | [] => none
  | p :: rest => if p.1 = k then some p.2 else emLookup k rest

/-- Drops all bindings of key `k` (helper for the replace-on-insert
semantics of `HashMap::insert`). -/
def emRemove (k : Nat) : EntryMap → EntryMap
  | [] => []
  | p :: rest => if p.1 = k then emRemove k rest else p :: emRemove k rest

/-- Insert into the entry map (`entries.insert(k, v)`): replaces any existing
binding of `k`. -/
def emInsert (m : EntryMap) (k : Nat) (v : Entry) : EntryMap :=
  (k, v) :: emRemove k m

/-- Mirrors the children finalization in `scan_dir`:
`if let Some(Entry::Dir { children, .. }) = entries.get_mut(&ino) { *children = new_children }`.
Entries at other keys, and a file entry at the key, are unchanged. -/
def emSetChildren (m : EntryMap) (k : Nat) (cs : List Nat) : EntryMap :=
  m.map (fun p =>
    if p.1 = k then
      match p.2 with
      | .dir par n i sym ig _ => (p.1, Entry.dir par n i sym ig cs)
      | e => (p.1, e)
    else p)

@[simp] theorem emLookup_nil (k : Nat) : emLookup k [] = none := rfl

@[simp] theorem emLookup_cons (k : Nat) (p : Nat × Entry) (rest : EntryMap) :
    emLookup k (p :: rest) = if p.1 = k then some p.2 else emLookup k rest := rfl

theorem emLookup_insert_self (m : EntryMap) (k : Nat) (v : Entry) :
    emLookup k (emInsert m k v) = some v := by
  simp [emInsert]

theorem emLookup_remove_ne (m : EntryMap) (k k' : Nat) (h : k' ≠ k) :
    emLookup k' (emRemove k m) = emLookup k' m := by
  induction m with
  | nil => rfl
  | cons p rest ih =>
    by_cases hp : p.1 = k
    · subst hp
      simp [emRemove, emLookup, Ne.symm h, ih]
    · simp [emRemove, hp, emLookup, ih]

theorem emLookup_insert_ne (m : EntryMap) (k k' : Nat) (v : Entry) (h : k' ≠ k) :
    emLookup k' (emInsert m k v) = emLookup k' m := by
  simp [emInsert, Ne.symm h, emLookup_remove_ne m k k' h]

theorem emLookup_setChildren_ne (m : EntryMap) (k k' : Nat) (cs : List Nat) (h : k' ≠ k) :
    emLookup k' (emSetChildren m k cs) = emLookup k' m := by
  induction m with
  | nil => rfl
  | cons p rest ih =>
    by_cases hp : p.1 = k
    · subst hp
      cases hv : p.2 <;> simp_all [emSetChildren, emLookup, Ne.symm h, hv]
    · by_cases hk' : p.1 = k'
      · subst hk'
        simp_all [emSetChildren, hp, emLookup]
      · simp_all [emSetChildren, hp, emLookup, hk']

theorem emLookup_setChildren_dir (m : EntryMap) (k : Nat) (cs : List Nat)
    (par : Option Nat) (n : String) (i : Nat) (sym ig : Bool) (old : List Nat)
    (h : emLookup k m = some (.dir par n i sym ig old)) :
    emLookup k (emSetChildren m k cs) = some (.dir par n i sym ig cs) := by
  induction m with
  | nil => simp [emLookup] at h
  | cons p rest ih =>
    by_cases hp : p.1 = k
    · simp only [emLookup_cons, if_pos hp] at h
      have h2 : p.2 = Entry.dir par n i sym ig old := Option.some.inj h
      simp [emSetChildren, hp, h2, emLookup]
    · simp only [emLookup_cons, if_neg hp] at h
      simp [emSetChildren, hp, emLookup] at ih ⊢
      simpa using ih h

theorem emLookup_mem_keys (m : EntryMap) (k : Nat) (v : Entry)
    (h : emLookup k m = some v) : k ∈ m.map Prod.fst := by
  induction m with
  | nil => simp [emLookup] at h
  | cons p rest ih =>
    by_cases hp : p.1 = k
    · simp [hp]
    · simp only [emLookup_cons, if_neg hp] at h
      simp [ih h]

/-- Mirrors `enum ScanState`. -/
inductive ScanState where
  | Scanning
  | Idle
deriving DecidableEq, Repr

/-- Mirrors `fuzzy::PathEntry` as far as this module constructs it in
`insert_file`: the file's inode, the relative path as characters, its
lowercased copy and the ignored flag.  (The character-bag pre-filter summary
is an input to the external fuzzy matcher and carries no information beyond
the path characters themselves.) -/
structure PathEntry where
  ino : Nat
  path : List Char
  lowercasePath : List Char
  isIgnored : Bool
deriving DecidableEq, Repr

/-- Mirrors `struct WorktreeState` (the history cache is owned by the
content-access layer and is not needed by any claim-relevant operation
except `load_history`, which no claim quantifies over). -/
structure WorktreeState where
  id : Nat
  path : List String
  rootIno : Option Nat
  entries : EntryMap
  filePaths : List PathEntry
  scanState : ScanState
deriving DecidableEq, Repr

/-- The textual form of a relative path built by successive `PathBuf::join`
of components, as `to_string_lossy` renders it. -/
def pathText (p : List String) : String := String.intercalate "/" p

/-- Mirrors `Worktree::insert_dir`: adds a directory entry with an empty
child list and flips the scan state to `Scanning`. -/
def insertDir (st : WorktreeState) (parent : Option Nat) (name : String) (ino : Nat)
    (isSymlink isIgnored : Bool) : WorktreeState :=
  { st with
      entries := emInsert st.entries ino (.dir parent name ino isSymlink isIgnored []),
      scanState := .Scanning }

/-- Mirrors `Worktree::insert_file`: adds a file entry, appends a search
record built from the relative path, and flips the scan state to
`Scanning`. -/
def insertFile (st : WorktreeState) (parent : Option Nat) (name : String) (ino : Nat)
    (isSymlink isIgnored : Bool) (relPath : List String) : WorktreeState :=
  { st with
      entries := emInsert st.entries ino (.file parent name ino isSymlink isIgnored),
      filePaths := st.filePaths ++
        [{ ino := ino, path := (pathText relPath).toList,
           lowercasePath := (pathText relPath).toLower.toList, isIgnored := isIgnored }],
      scanState := .Scanning }

/-- Mirrors the loop in `Worktree::entry_path`: repeatedly look the current
id up (failing with the source's error message when it is absent), push the
entry, and follow the parent link until an entry with no parent is reached.
The Rust loop is unbounded; the embedding gives it `fuel` steps, and every
theorem invokes it with enough fuel for the chain at hand (a chain that
reaches the root, or hits a missing id, never revisits an id, so
`entries.length + 1` steps always suffice for those cases). -/
def entryPathAux (m : EntryMap) : Nat → Nat → List Entry → Except String (List Entry)
  | 0, _, _ => .error "loop in worktree parent chain"
  | fuel+1, entryId, acc =>
    match emLookup entryId m with
    | none => .error "entry does not exist in worktree"
    | some e =>
      match e.parent with
      | some p => entryPathAux m fuel p (e :: acc)
      | none => .ok (e :: acc)

/-- Mirrors `Worktree::entry_path`: the resulting path's components, read
root-to-leaf, are the names of the entries along the parent chain. -/
def entryPath (st : WorktreeState) (entryId : Nat) : Except String (List String) :=
  (entryPathAux st.entries (st.entries.length + 1) entryId []).map
    (fun es => es.map Entry.name)

/-- Mirrors `Worktree::abs_entry_path`: the worktree path with its last
component popped, joined with the entry's relative path. -/
def absEntryPath (st : WorktreeState) (entryId : Nat) : Except String (List String) :=
  (entryPath st entryId).map (fun p => st.path.dropLast ++ p)

/-- The walk of parent links from an id, leaf first: `Walk m i c true`
states that the chain from `i` reaches a root entry (no parent) and visits
exactly the id/entry pairs in `c`; `Walk m i c false` states that the walk
hits a missing id after visiting the pairs in `c`. -/
inductive Walk (m : EntryMap) : Nat → List (Nat × Entry) → Bool → Prop
  | missing {i : Nat} : emLookup i m = none → Walk m i [] false
  | root {i : Nat} {e : Entry} : emLookup i m = some e → e.parent = none →
      Walk m i [(i, e)] true
  | step {i p : Nat} {e : Entry} {c : List (Nat × Entry)} {b : Bool} :
      emLookup i m = some e → e.parent = some p → Walk m p c b →
      Walk m i ((i, e) :: c) b

theorem walk_deterministic {m : EntryMap} {i : Nat} {c c' : List (Nat × Entry)}
    {b b' : Bool} (h : Walk m i c b) (h' : Walk m i c' b') : c = c' ∧ b = b' := by
  induction h generalizing c' b' with
  | missing hm =>
    cases h' with
    | missing _ => exact ⟨rfl, rfl⟩
    | root he _ => rw [hm] at he; cases he
    | step he _ _ => rw [hm] at he; cases he
  | root he hp =>
    cases h' with
    | missing hm => rw [hm] at he; cases he
    | root he' hp' => rw [he] at he'; cases he'; exact ⟨rfl, rfl⟩
    | step he' hp' _ => rw [he] at he'; cases he'; rw [hp] at hp'; cases hp'
  | step he hp hw ih =>
    cases h' with
    | missing hm => rw [hm] at he; cases he
    | root he' hp' => rw [he] at he'; cases he'; rw [hp] at hp'; cases hp'
    | step he' hp' hw' =>
      rw [he] at he'; cases he'
      rw [hp] at hp'; cases hp'
      obtain ⟨hc, hb⟩ := ih hw'
      exact ⟨by rw [hc], hb⟩

theorem walk_mem_suffix {m : EntryMap} {i : Nat} {c : List (Nat × Entry)} {b : Bool}
    (h : Walk m i c b) : ∀ q ∈ c, ∃ c', c' <:+ c ∧ Walk m q.1 c' b ∧ c'.length ≥ 1 ∧
      c'.head? = some q := by
  induction h with
  | missing _ => intro q hq; simp at hq
  | root he hp =>
    intro q hq
    simp only [List.mem_singleton] at hq
    subst hq
    exact ⟨_, List.suffix_refl _, Walk.root he hp, by simp, rfl⟩
  | step he hp hw ih =>
    intro q hq
    rcases List.mem_cons.mp hq with hq | hq
    · subst hq
      exact ⟨_, List.suffix_refl _, Walk.step he hp hw, by simp, rfl⟩
    · obtain ⟨c', hsuf, hwalk, hlen, hhead⟩ := ih q hq
      exact ⟨c', hsuf.trans (List.suffix_cons _ _), hwalk, hlen, hhead⟩

theorem walk_nodup {m : EntryMap} {i : Nat} {c : List (Nat × Entry)} {b : Bool}
    (h : Walk m i c b) : (c.map Prod.fst).Nodup := by
  induction h with
  | missing _ => simp
  | root _ _ => simp
  | step he hp hw ih =>
    simp only [List.map_cons, List.nodup_cons]
    refine ⟨?_, ih⟩
    intro hmem
    obtain ⟨q, hq, hfst⟩ := List.mem_map.mp hmem
    obtain ⟨c', hsuf, hwalk, hlen, _⟩ := walk_mem_suffix hw q hq
    rw [hfst] at hwalk
    obtain ⟨hc, _⟩ := walk_deterministic (Walk.step he hp hw) hwalk
    have h1 := hsuf.length_le
    rw [← hc] at h1
    simp only [List.length_cons] at h1
    omega

theorem walk_keys {m : EntryMap} {i : Nat} {c : List (Nat × Entry)} {b : Bool}
    (h : Walk m i c b) : ∀ q ∈ c, emLookup q.1 m = some q.2 := by
  induction h with
  | missing _ => intro q hq; simp at hq
  | root he _ =>
    intro q hq
    simp only [List.mem_singleton] at hq
    subst hq; exact he
  | step he _ _ ih =>
    intro q hq
    rcases List.mem_cons.mp hq with hq | hq
    · subst hq; exact he
    · exact ih q hq

theorem walk_length {m : EntryMap} {i : Nat} {c : List (Nat × Entry)} {b : Bool}
    (h : Walk m i c b) : c.length ≤ m.length := by
  have hnd : (c.map Prod.fst).Nodup := walk_nodup h
  have hsub : (c.map Prod.fst) ⊆ (m.map Prod.fst) := by
    intro k hk
    obtain ⟨q, hq, hfst⟩ := List.mem_map.mp hk
    subst hfst
    exact emLookup_mem_keys m q.1 q.2 (walk_keys h q hq)
  have h1 : (c.map Prod.fst).toFinset.card = (c.map Prod.fst).length :=
    List.toFinset_card_of_nodup hnd
  have h2 : (c.map Prod.fst).toFinset ⊆ (m.map Prod.fst).toFinset := by
    intro k hk
    rw [List.mem_toFinset] at hk ⊢
    exact hsub hk
  have h3 : (m.map Prod.fst).toFinset.card ≤ (m.map Prod.fst).length :=
    (m.map Prod.fst).toFinset_card_le
  have h4 := Finset.card_le_card h2
  calc c.length = (c.map Prod.fst).length := (List.length_map _ _).symm
    _ = (c.map Prod.fst).toFinset.card := h1.symm
    _ ≤ (m.map Prod.fst).toFinset.card := h4
    _ ≤ (m.map Prod.fst).length := h3
    _ = m.length := List.length_map _ _

theorem entryPathAux_spec {m : EntryMap} {i : Nat} {c : List (Nat × Entry)} {b : Bool}
    (h : Walk m i c b) : ∀ fuel, c.length + 1 ≤ fuel → ∀ acc,
      entryPathAux m fuel i acc =
        if b then .ok (c.reverse.map Prod.snd ++ acc)
        else .error "entry does not exist in worktree" := by
  induction h with
  | missing hm =>
    intro fuel hfuel acc
    match fuel, hfuel with
    | f+1, _ => simp [entryPathAux, hm]
  | root he hp =>
    intro fuel hfuel acc
    match fuel, hfuel with
    | f+1, _ => simp [entryPathAux, he, hp]
  | @step i0 p0 e0 c0 b0 he hp hw ih =>
    intro fuel hfuel acc
    match fuel, hfuel with
    | f+1, hfuel =>
      have hle : c0.length + 1 ≤ f := by
        simpa [Nat.succ_le_succ_iff] using hfuel
      cases b0 <;> simp [entryPathAux, he, hp, ih f hle]

/-- C1: for every entry id whose parent chain reaches the root, `entry_path`
returns the path whose components, read root-to-leaf, are exactly the names
recorded along that chain (the chain `c` is listed leaf first, so the
result is its reversal's names); and for every id that is absent, or whose
parent chain hits a missing id, `entry_path` fails with the NotFound-style
error `entry does not exist in worktree` and produces no partial path. -/
theorem entryPath_resolves_chain (st : WorktreeState) (entryId : Nat) :
    (∀ c, Walk st.entries entryId c true →
        entryPath st entryId = .ok (c.reverse.map (fun q => q.2.name))) ∧
    (∀ c, Walk st.entries entryId c false →
        entryPath st entryId = .error "entry does not exist in worktree") := by
  constructor
  · intro c hw
    have hlen : c.length + 1 ≤ st.entries.length + 1 :=
      Nat.succ_le_succ (walk_length hw)
    have hh := entryPathAux_spec hw (st.entries.length + 1) hlen []
    simp only [if_true] at hh
    simp [entryPath, hh, Except.map, List.map_map, Function.comp]
  · intro c hw
    have hlen : c.length + 1 ≤ st.entries.length + 1 :=
      Nat.succ_le_succ (walk_length hw)
    have hh := entryPathAux_spec hw (st.entries.length + 1) hlen []
    simp only [Bool.false_eq_true, if_false] at hh
    simp [entryPath, hh, Except.map]

/-- A tiny concrete worktree used by witnesses: a root directory containing
one file. -/
def exampleTreeState : WorktreeState :=
  { id := 1
    path := ["home", "root"]
    rootIno := some 1
    entries :=
      [(1, .dir none "root" 1 false false [2]),
       (2, .file (some 1) "a.txt" 2 false false)]
    filePaths := []
    scanState := .Idle }

/-- C1 witness: on the concrete two-entry tree, the theorem yields the
resolved path for the file (root-to-leaf names) and the NotFound error for
an absent id. -/
theorem entryPath_resolves_chain_witness :
    entryPath exampleTreeState 2 = .ok ["root", "a.txt"] ∧
    entryPath exampleTreeState 5 = .error "entry does not exist in worktree" := by
  constructor
  · exact (entryPath_resolves_chain exampleTreeState 2).1
      [(2, .file (some 1) "a.txt" 2 false false), (1, .dir none "root" 1 false false [2])]
      (Walk.step (by decide) rfl (Walk.root (by decide) rfl))
  · exact (entryPath_resolves_chain exampleTreeState 5).2 [] (Walk.missing (by decide))

/-- Mirrors `struct FileHandle`: the handle keeps a reference to the
worktree (represented by its numeric id) and the entry id. -/
structure FileHandle where
  worktreeId : Nat
  entryId : Nat
deriving DecidableEq, Repr

/-- Mirrors `Worktree::has_entry`. -/
def hasEntry (st : WorktreeState) (entryId : Nat) : Bool :=
  (emLookup entryId st.entries).isSome

/-- Mirrors `Worktree::entry_count`. -/
def entryCount (st : WorktreeState) : Nat := st.entries.length

/-- Mirrors `Worktree::file_count`. -/
def fileCount (st : WorktreeState) : Nat := st.filePaths.length

/-- Mirrors `WorktreeHandle::file` for `ModelHandle<Worktree>`, with the
condition exactly as in the source: it errors when `has_entry` holds and
hands out a `FileHandle` otherwise. -/
def worktreeFile (st : WorktreeState) (entryId : Nat) : Except String FileHandle :=
  if hasEntry st entryId then .error "entry does not exist in tree"
  else .ok { worktreeId := st.id, entryId := entryId }

/-- C4: `WorktreeHandle::file` returns the error `entry does not exist in
tree` exactly when the id is present in the entry map, and returns a
`FileHandle` exactly when the id is absent — the success/failure condition
is inverted relative to the error message. -/
theorem worktreeFile_condition_inverted (st : WorktreeState) (entryId : Nat) :
    (worktreeFile st entryId = .error "entry does not exist in tree" ↔
      hasEntry st entryId = true) ∧
    (worktreeFile st entryId = .ok { worktreeId := st.id, entryId := entryId } ↔
      hasEntry st entryId = false) := by
  by_cases h : hasEntry st entryId <;> simp [worktreeFile, h]

/-- Mirrors `WorktreeState::root_entry`. -/
def rootEntry (st : WorktreeState) : Option Entry :=
  st.rootIno.bind (fun i => emLookup i st.entries)

/-- The prefix-skip computation in `match_paths`: when exactly one worktree
is searched and its root entry is a directory, the skip count is the root
name's character count plus one, except `1` when the name is `/`; in every
other case (several trees, root entry missing or a file) it is `0`.
`String.length` counts characters, matching `name.chars().count()`. -/
def skipForTree (treeCount : Nat) (st : WorktreeState) : Nat :=
  if treeCount = 1 then
    match rootEntry st with
    | some (.dir _ name _ _ _ _) => if name = "/" then 1 else name.length + 1
    | _ => 0
  else 0

/-- Mirrors the per-tree view `match_paths` assembles for the external
fuzzy matcher: tree id, prefix-skip count, and the search records. -/
def matchPathsView (trees : List WorktreeState) : List (Nat × Nat × List PathEntry) :=
  trees.map (fun t => (t.id, skipForTree trees.length t, t.filePaths))

/-- C5: the prefix-skip count passed to the fuzzy matcher is the character
count of the root directory's visible name plus one when a single worktree
is searched (except `1` for the name `/`), and `0` when several worktrees
are combined into one search. -/
theorem matchPaths_skip_count (trees : List WorktreeState) (t : WorktreeState)
    (par : Option Nat) (name : String) (i : Nat) (sym ig : Bool) (cs : List Nat) :
    (trees.length = 1 → rootEntry t = some (.dir par name i sym ig cs) →
        skipForTree trees.length t = if name = "/" then 1 else name.length + 1) ∧
    (trees.length ≠ 1 → skipForTree trees.length t = 0) := by
  constructor
  · intro h1 hroot
    simp [skipForTree, h1, hroot]
  · intro h1
    simp [skipForTree, h1]

/-- C5 witness: a single tree whose root is the directory `root` gives skip
count 5 (4 characters plus one separator); two combined trees give 0. -/
theorem matchPaths_skip_count_witness :
    skipForTree [exampleTreeState].length exampleTreeState = 5 ∧
    skipForTree [exampleTreeState, exampleTreeState].length exampleTreeState = 0 := by
  constructor
  · exact (matchPaths_skip_count [exampleTreeState] exampleTreeState
      none "root" 1 false false [2]).1 (by decide) (by decide)
  · exact (matchPaths_skip_count [exampleTreeState, exampleTreeState] exampleTreeState
      none "root" 1 false false [2]).2 (by decide)

/-- Mirrors the editor `Snapshot` as the save path consumes it: an
estimated byte length (`text_summary().bytes`) and the sequence of byte
chunks (`fragments()`, each taken via `as_bytes`). -/
structure Snapshot where
  bytes : Nat
  fragments : List (List Nat)
deriving DecidableEq, Repr

/-- The observable effect of `Worktree::save`: the absolute path handed to
`File::create`, the `BufWriter::with_capacity` size, the bytes written
sequentially, and whether `flush` ran. -/
structure SaveOutcome where
  path : List String
  bufferCapacity : Nat
  written : List Nat
  flushed : Bool
deriving DecidableEq, Repr

/-- Mirrors `Worktree::save`: resolve the entry's absolute path (failing as
`abs_entry_path` fails), create/truncate the file at it, write the
snapshot's chunks through a buffer of capacity
`min(content.text_summary().bytes, 10 * 1024)`, then flush. -/
def save (st : WorktreeState) (entryId : Nat) (content : Snapshot) :
    Except String SaveOutcome :=
  let bufferSize := min content.bytes (10 * 1024)
  match absEntryPath st entryId with
  | .error e => .error e
  | .ok p => .ok { path := p, bufferCapacity := bufferSize,
                   written := content.fragments.foldr (fun a b => a ++ b) [],
                   flushed := true }

/-- C9: for every snapshot, `save` resolves the entry's absolute path,
creates/truncates the file there, writes the snapshot's byte chunks
sequentially through a buffer whose capacity is the minimum of the
snapshot's estimated byte length and 10 KiB, then flushes. -/
theorem save_buffered_write (st : WorktreeState) (entryId : Nat)
    (content : Snapshot) (p : List String)
    (h : absEntryPath st entryId = .ok p) :
    save st entryId content =
      .ok { path := p, bufferCapacity := min content.bytes (10 * 1024),
            written := content.fragments.foldr (fun a b => a ++ b) [],
            flushed := true } := by
  simp [save, h]

/-- C9 witness: saving a snapshot with estimated length 20000 bytes to the
file entry of the concrete tree caps the buffer at 10240 and writes the
concatenated chunks to the resolved absolute path. -/
theorem save_buffered_write_witness :
    save exampleTreeState 2 { bytes := 20000, fragments := [[104, 105], [10]] } =
      .ok { path := ["home", "root", "a.txt"], bufferCapacity := 10240,
            written := [104, 105, 10], flushed := true } :=
  save_buffered_write exampleTreeState 2
    { bytes := 20000, fragments := [[104, 105], [10]] }
    ["home", "root", "a.txt"] (by rfl)

mutual

/-- Mirrors `Worktree::fmt_entry`: a file prints name and id at the given
indent; a directory prints its own line and then formats each child id in
order, indented by two more spaces.  The source's map indexing
`entries[&entry_id]` panics when the id is absent; the embedding returns
`none` for that (and when the fuel, bounded by the recursion depth of any
acyclic run, runs out). -/
def fmtEntry (m : EntryMap) : Nat → Nat → Nat → Option String
  | 0, _, _ => none
  | fuel+1, entryId, indent =>
    match emLookup entryId m with
    | none => none
    | some (.file _ name _ _ _) =>
        some (String.join (List.replicate indent " ") ++ name ++
          " (" ++ toString entryId ++ ")\n")
    | some (.dir _ name _ _ _ children) =>
        (fmtChildren m fuel children (indent + 2)).map
          (fun rest => String.join (List.replicate indent " ") ++ name ++
            "/ (" ++ toString entryId ++ ")\n" ++ rest)
termination_by fuel entryId indent => (fuel, 0)

/-- Formats a directory's children in order, propagating the panic. -/
def fmtChildren (m : EntryMap) : Nat → List Nat → Nat → Option String
  | _, [], _ => some ""
  | fuel, c :: rest, indent =>
    match fmtEntry m fuel c indent with
    | none => none
    | some s =>
      match fmtChildren m fuel rest indent with
      | none => none
      | some t => some (s ++ t)
termination_by fuel cs indent => (fuel, cs.length + 1)

end

/-- Mirrors `impl fmt::Debug for Worktree`: an empty tree formats as
`Empty tree`, and any other tree is formatted starting from the hard-coded
entry id 0 (not the recorded root id); `none` models the panic of the
`entries[&0]` indexing. -/
def debugFmt (st : WorktreeState) : Option String :=
  if entryCount st = 0 then some "Empty tree\n"
  else fmtEntry st.entries (st.entries.length + 1) 0 0

/-- C10: Debug formatting of a worktree with at least one entry starts at
the hard-coded id 0 and looks entries up with panicking indexing, so it
panics (models as `none`) whenever no entry with id 0 exists — a non-empty
tree whose root id is nonzero cannot be Debug-formatted without a crash. -/
theorem debugFmt_panics_without_id_zero (st : WorktreeState)
    (hne : entryCount st ≠ 0) (h0 : emLookup 0 st.entries = none) :
    debugFmt st = none := by
  have hlen : ∃ f, st.entries.length + 1 = f + 1 := ⟨st.entries.length, rfl⟩
  obtain ⟨f, hf⟩ := hlen
  simp [debugFmt, hne, hf, fmtEntry, h0]

/-- C10 witness: the concrete two-entry tree (ids 1 and 2, root id 1) is
non-empty, has no entry with id 0, and Debug formatting panics on it. -/
theorem debugFmt_panics_without_id_zero_witness :
    debugFmt exampleTreeState = none :=
  debugFmt_panics_without_id_zero exampleTreeState (by decide) (by decide)

/-- The external ignore-matching engine (the `ignore` crate as this module
uses it), abstracted: building a matcher from a path's ancestor chain
(`IgnoreBuilder::new().build().add_parents(path)`), narrowing it to a child
directory (`add_child`) and querying it (`matched(path, is_dir).is_ignore()`).
The scanner's ignore policy is settled for every engine. -/
structure IgnoreEngine (I : Type) where
  baseFromParents : List String → I
  addChild : I → List String → I
  isIgnoreMatch : I → List String → Bool → Bool

/-- A file-system subtree as the scan observes it: files and directories
with names, inode numbers and symlink flags.  `statError` stands for a
directory entry whose metadata call fails, and a directory's `readError`
field stands for a failing `read_dir` listing of that directory. -/
inductive FsNode where
  | file (name : String) (ino : Nat) (isSymlink : Bool)
  | statError (msg : String)
  | dir (name : String) (ino : Nat) (isSymlink : Bool)
      (readError : Option String) (children : List FsNode)

/-- The directory-child ignore derivation in `scan_dir`: with no parent
context the child is ignored (`is_ignored = true`) and gets no context of
its own; otherwise the matcher narrowed by `add_child` decides, a directory
literally named `.git` is forced ignored, and only an un-ignored child
keeps the narrowed context. -/
def deriveDirIgnore (eng : IgnoreEngine I) (ctx : Option I) (path : List String)
    (name : String) : Bool × Option I :=
  match ctx with
  | none => (true, none)
  | some parentIgnore =>
      let childIgnore := eng.addChild parentIgnore path
      let ig := eng.isIgnoreMatch childIgnore path true || name == ".git"
      (ig, if ig then none else some childIgnore)

/-- The file ignore derivation in `scan_dir`:
`to_scan.ignore.as_ref().map_or(true, |i| i.matched(path, false).is_ignore())`. -/
def fileIgnored (eng : IgnoreEngine I) (ctx : Option I) (path : List String) : Bool :=
  match ctx with
  | none => true
  | some i => eng.isIgnoreMatch i path false

/-- One `scan_dir` job's listing loop (the `for child_entry in read_dir`
body): insert every child entry in order and collect the `new_children` id
list, stopping at the first failing metadata call exactly as `?` does and
returning its error message. -/
def insertChildren (eng : IgnoreEngine I) (parentIno : Nat)
    (dirPath relPath : List String) (ctx : Option I) :
    List FsNode → WorktreeState → WorktreeState × List Nat × List String
  | [], st => (st, [], [])
  | .statError msg :: _, st => (st, [], [msg])
  | .file name ino sym :: rest, st =>
      let ig := fileIgnored eng ctx (dirPath ++ [name])
      let st1 := insertFile st (some parentIno) name ino sym ig (relPath ++ [name])
      let r := insertChildren eng parentIno dirPath relPath ctx rest st1
      (r.1, ino :: r.2.1, r.2.2)
  | .dir name ino sym _ _ :: rest, st =>
      let ig := (deriveDirIgnore eng ctx (dirPath ++ [name]) name).1
      let st1 := insertDir st (some parentIno) name ino sym ig
      let r := insertChildren eng parentIno dirPath relPath ctx rest st1
      (r.1, ino :: r.2.1, r.2.2)

/-- Processes the subdirectory jobs one `scan_dir` call enqueued, in order:
for each directory child occurring before any failing stat, run its own
`scan_dir` (list and insert its children, finalize its child list unless an
I/O error cut the listing short, then recurse into its own subdirectory
jobs).  This is the deterministic sequential denotation of the 16-worker
shared queue: every job that reaches the queue is eventually executed by
some worker (a worker that hits an I/O error returns, its error is
collected by the `Parallel` join, and the remaining queued jobs are drained
by its peers), and the resulting entry map does not depend on the
interleaving, only on the set of executed jobs. -/
def scanSubdirs (eng : IgnoreEngine I) (parentPath relParentPath : List String)
    (ctx : Option I) : List FsNode → WorktreeState → WorktreeState × List String
  | [], st => (st, [])
  | .statError _ :: _, st => (st, [])
  | .file _ _ _ :: rest, st => scanSubdirs eng parentPath relParentPath ctx rest st
  | .dir name ino _ readErr gcs :: rest, st =>
      let path := parentPath ++ [name]
      let rel := relParentPath ++ [name]
      let dctx := (deriveDirIgnore eng ctx path name).2
      match readErr with
      | some e =>
          let r := scanSubdirs eng parentPath relParentPath ctx rest st
          (r.1, e :: r.2)
      | none =>
          let r1 := insertChildren eng ino path rel dctx gcs st
          let st1 := if r1.2.2 = [] then
              { r1.1 with entries := emSetChildren r1.1.entries ino r1.2.1 }
            else r1.1
          let r2 := scanSubdirs eng path rel dctx gcs st1
          let r3 := scanSubdirs eng parentPath relParentPath ctx rest r2.1
          (r3.1, r1.2.2 ++ r2.2 ++ r3.2)

/-- One whole `scan_dir` job for a directory with the given id, absolute
path, relative path and optional ignore context: fail on a `read_dir`
error; otherwise insert all children (stopping at a failing stat), finalize
the directory's child list only when the listing completed, then process
the enqueued subdirectory jobs. -/
def scanDirLevel (eng : IgnoreEngine I) (ino : Nat) (path rel : List String)
    (ctx : Option I) (readErr : Option String) (cs : List FsNode)
    (st : WorktreeState) : WorktreeState × List String :=
  match readErr with
  | some e => (st, [e])
  | none =>
      let r1 := insertChildren eng ino path rel ctx cs st
      let st1 := if r1.2.2 = [] then
          { r1.1 with entries := emSetChildren r1.1.entries ino r1.2.1 }
        else r1.1
      let r2 := scanSubdirs eng path rel ctx cs st1
      (r2.1, r1.2.2 ++ r2.2)

/-- `path.file_name()` of the configured root path with the source's `/`
fallback for a root with no final component. -/
def rootName (path : List String) : String := path.getLast?.getD "/"

/-- The observable outcome of `scan_dirs`: the final shared state, the
`io::Result` it returns (`some` an error message or `none`), and whether
the job channel plus 16-worker pool were created (they are created only in
the directory branch). -/
structure ScanOutcome where
  state : WorktreeState
  error : Option String
  poolCreated : Bool
deriving Repr

/-- Mirrors `Worktree::scan_dirs`.  Root metadata failure aborts before
anything is inserted.  A plain-file root is inserted directly (no pool).
A directory root is inserted (with the `.git` forced-ignore applied to its
name), and its job — which always carries `Some(ignore)`, even when the
root itself is ignored — is processed by the worker pool; the collected
worker results are `?`-propagated, so `root_ino` is recorded only when no
branch reported an error. -/
def scanDirs (eng : IgnoreEngine I) (root : FsNode) (st0 : WorktreeState) :
    ScanOutcome :=
  let name := rootName st0.path
  match root with
  | .statError msg => { state := st0, error := some msg, poolCreated := false }
  | .file _ ino sym =>
      let ig0 := eng.baseFromParents st0.path
      let isIgnored := eng.isIgnoreMatch ig0 st0.path false
      let st1 := insertFile st0 none name ino sym isIgnored [name]
      { state := { st1 with rootIno := some ino }, error := none,
        poolCreated := false }
  | .dir _ ino sym readErr cs =>
      let ig0 := eng.addChild (eng.baseFromParents st0.path) st0.path
      let isIgnored := eng.isIgnoreMatch ig0 st0.path true || name == ".git"
      let st1 := insertDir st0 none name ino sym isIgnored
      let r := scanDirLevel eng ino st0.path [name] (some ig0) readErr cs st1
      match r.2 with
      | [] => { state := { r.1 with rootIno := some ino }, error := none,
                poolCreated := true }
      | e :: _ => { state := r.1, error := some e, poolCreated := true }

/-- Mirrors the scanning thread spawned by `Worktree::new`: run
`scan_dirs`, log (and drop) any error it returns, then set the scan state
to `Idle` unconditionally. -/
def runScan (eng : IgnoreEngine I) (root : FsNode) (st0 : WorktreeState) :
    ScanOutcome :=
  let out := scanDirs eng root st0
  { out with state := { out.state with scanState := .Idle } }

/-- Mirrors the state `Worktree::new` builds before spawning the scan. -/
def newState (id : Nat) (path : List String) : WorktreeState :=
  { id := id, path := path, rootIno := none, entries := [], filePaths := [],
    scanState := .Scanning }

/-- The ids `scan_dir` collects into `new_children`: the inos of the
listing's entries up to the first failing stat. -/
def topInos : List FsNode → List Nat
  | [] => []
  | .file _ i _ :: r => i :: topInos r
  | .dir _ i _ _ _ :: r => i :: topInos r
  | .statError _ :: _ => []

/-- All inode numbers occurring anywhere in a forest (used to state
freshness and distinctness hypotheses about the scanned subtree). -/
def forestInos : List FsNode → List Nat
  | [] => []
  | .file _ i _ :: r => i :: forestInos r
  | .statError _ :: r => forestInos r
  | .dir _ i _ _ gcs :: r => i :: (forestInos gcs ++ forestInos r)

/-- True when no entry of the listing has a failing stat. -/
def statOk : List FsNode → Bool
  | [] => true
  | .statError _ :: _ => false
  | .file _ _ _ :: r => statOk r
  | .dir _ _ _ _ _ :: r => statOk r

/-- True when the whole forest is free of I/O errors (failing stats and
failing directory listings). -/
def forestOk : List FsNode → Bool
  | [] => true
  | .statError _ :: _ => false
  | .file _ _ _ :: r => forestOk r
  | .dir _ _ _ re gcs :: r => re.isNone && forestOk gcs && forestOk r

theorem topInos_sub_forestInos (cs : List FsNode) : ∀ k ∈ topInos cs, k ∈ forestInos cs := by
  induction cs with
  | nil => simp [topInos]
  | cons c rest ih =>
    cases c with
    | file n i s =>
      intro k hk
      simp only [topInos, List.mem_cons] at hk
      rcases hk with hk | hk
      · simp [forestInos, hk]
      · simp [forestInos, ih k hk]
    | statError msg => simp [topInos]
    | dir n i s re gcs =>
      intro k hk
      simp only [topInos, List.mem_cons] at hk
      rcases hk with hk | hk
      · simp [forestInos, hk]
      · simp [forestInos, ih k hk]

/-- Single-equation characterization of lookup after insert. -/
theorem emLookup_insert (m : EntryMap) (k0 : Nat) (v0 : Entry) (k : Nat) :
    emLookup k (emInsert m k0 v0) = if k = k0 then some v0 else emLookup k m := by
  by_cases hk : k = k0
  · subst hk; simp [emLookup_insert_self]
  · simp [hk, emLookup_insert_ne m k0 k v0 hk]

theorem emSetChildren_cons (p : Nat × Entry) (rest : EntryMap) (k0 : Nat) (cs : List Nat) :
    emSetChildren (p :: rest) k0 cs =
      (if p.1 = k0 then
        match p.2 with
        | .dir par n i sym ig _ => (p.1, Entry.dir par n i sym ig cs)
        | e => (p.1, e)
      else p) :: emSetChildren rest k0 cs := rfl

/-- Single-equation characterization of lookup after children
finalization: the entry at the finalized key has its child list replaced
when it is a directory; everything else is unchanged. -/
theorem emLookup_setChildren (m : EntryMap) (k0 : Nat) (cs : List Nat) (k : Nat) :
    emLookup k (emSetChildren m k0 cs) =
      (emLookup k m).map (fun v =>
        if k = k0 then
          match v with
          | .dir par n i sym ig _ => .dir par n i sym ig cs
          | e => e
        else v) := by
  induction m with
  | nil => rfl
  | cons p rest ih =>
    obtain ⟨pk, pv⟩ := p
    rw [emSetChildren_cons]
    by_cases hp0 : pk = k0
    · subst hp0
      by_cases hk : pk = k
      · subst hk
        cases pv <;> simp [emLookup]
      · cases pv <;> simp [emLookup, hk, ih]
    · by_cases hk : pk = k
      · subst hk
        cases pv <;> simp [emLookup, hp0, ih]
      · cases pv <;> simp [emLookup, hp0, hk, ih]

/-- Entries are never un-ignored between two states: every entry of the
second state is ignored or was already present with the same flag. -/
def IgnoreTransfer (st st' : WorktreeState) : Prop :=
  ∀ k v, emLookup k st'.entries = some v →
    v.ignored = true ∨ ∃ v0, emLookup k st.entries = some v0 ∧ v0.ignored = v.ignored

theorem ignoreTransfer_refl (st : WorktreeState) : IgnoreTransfer st st :=
  fun _ v h => Or.inr ⟨v, h, rfl⟩

theorem ignoreTransfer_trans {st1 st2 st3 : WorktreeState}
    (h12 : IgnoreTransfer st1 st2) (h23 : IgnoreTransfer st2 st3) :
    IgnoreTransfer st1 st3 := by
  intro k v h
  rcases h23 k v h with hig | ⟨v2, hv2, hflag⟩
  · exact Or.inl hig
  · rcases h12 k v2 hv2 with hig | ⟨v1, hv1, hflag1⟩
    · exact Or.inl (hflag ▸ hig)
    · exact Or.inr ⟨v1, hv1, hflag1.trans hflag⟩

theorem ignoreTransfer_insert_ignored {st st' : WorktreeState} {i : Nat} {v : Entry}
    (hent : st'.entries = emInsert st.entries i v) (hig : v.ignored = true) :
    IgnoreTransfer st st' := by
  intro k w h
  rw [hent, emLookup_insert] at h
  by_cases hk : k = i
  · simp only [hk, if_pos rfl] at h
    exact Or.inl ((Option.some.inj h) ▸ hig)
  · simp only [hk, if_neg hk] at h
    exact Or.inr ⟨w, h, rfl⟩

theorem ignoreTransfer_setChildren {st st' : WorktreeState} {i : Nat} {cl : List Nat}
    (hent : st'.entries = emSetChildren st.entries i cl) : IgnoreTransfer st st' := by
  intro k w h
  rw [hent, emLookup_setChildren] at h
  cases hv : emLookup k st.entries with
  | none => rw [hv] at h; simp at h
  | some v0 =>
    rw [hv] at h
    refine Or.inr ⟨v0, rfl, ?_⟩
    have hw : w = (fun v =>
        if k = i then
          match v with
          | Entry.dir par n i sym ig _ => Entry.dir par n i sym ig cl
          | e => e
        else v) v0 := by
      apply Option.some.inj
      rw [← h]
      rfl
    rw [hw]
    by_cases hk : k = i
    · cases v0 <;> simp [hk, Entry.ignored]
    · simp [hk]

theorem emInsert_isSome (m : EntryMap) (k0 : Nat) (v0 : Entry) (k : Nat)
    (h : (emLookup k m).isSome = true) : (emLookup k (emInsert m k0 v0)).isSome = true := by
  rw [emLookup_insert]
  by_cases hk : k = k0 <;> simp [hk, h]

theorem emSetChildren_isSome (m : EntryMap) (k0 : Nat) (cs : List Nat) (k : Nat)
    (h : (emLookup k m).isSome = true) :
    (emLookup k (emSetChildren m k0 cs)).isSome = true := by
  rw [emLookup_setChildren]
  cases hv : emLookup k m with
  | none => rw [hv] at h; simp at h
  | some v => simp

theorem sizeOf_tail_le (c : FsNode) (rest : List FsNode) (n : Nat)
    (h : sizeOf (c :: rest) ≤ n + 1) : sizeOf rest ≤ n := by
  simp only [List.cons.sizeOf_spec] at h
  have hc : 0 ≤ sizeOf c := Nat.zero_le _
  omega

theorem sizeOf_gcs_le (name : String) (ino : Nat) (sym : Bool) (re : Option String)
    (gcs rest : List FsNode) (n : Nat)
    (h : sizeOf (FsNode.dir name ino sym re gcs :: rest) ≤ n + 1) :
    sizeOf gcs ≤ n := by
  simp only [List.cons.sizeOf_spec, FsNode.dir.sizeOf_spec] at h
  omega

theorem insertChildren_frame {I : Type} (eng : IgnoreEngine I) (parentIno : Nat)
    (dp rp : List String) (ctx : Option I) (cs : List FsNode) (k : Nat) :
    ∀ st : WorktreeState, k ∉ topInos cs →
      emLookup k (insertChildren eng parentIno dp rp ctx cs st).1.entries =
        emLookup k st.entries := by
  induction cs with
  | nil => intro st _; rfl
  | cons c rest ih =>
    intro st hk
    cases c with
    | statError msg => rfl
    | file name ino sym =>
      simp only [topInos, List.mem_cons, not_or] at hk
      simp only [insertChildren]
      rw [ih _ hk.2]
      simp only [insertFile]
      exact emLookup_insert_ne st.entries ino k _ hk.1
    | dir name ino sym re gcs =>
      simp only [topInos, List.mem_cons, not_or] at hk
      simp only [insertChildren]
      rw [ih _ hk.2]
      simp only [insertDir]
      exact emLookup_insert_ne st.entries ino k _ hk.1

theorem insertChildren_rootIno {I : Type} (eng : IgnoreEngine I) (parentIno : Nat)
    (dp rp : List String) (ctx : Option I) (cs : List FsNode) :
    ∀ st : WorktreeState,
      (insertChildren eng parentIno dp rp ctx cs st).1.rootIno = st.rootIno := by
  induction cs with
  | nil => intro st; rfl
  | cons c rest ih =>
    intro st
    cases c with
    | statError msg => rfl
    | file name ino sym => simp only [insertChildren]; rw [ih]; rfl
    | dir name ino sym re gcs => simp only [insertChildren]; rw [ih]; rfl

theorem insertChildren_isSome {I : Type} (eng : IgnoreEngine I) (parentIno : Nat)
    (dp rp : List String) (ctx : Option I) (cs : List FsNode) (k : Nat) :
    ∀ st : WorktreeState, (emLookup k st.entries).isSome = true →
      (emLookup k (insertChildren eng parentIno dp rp ctx cs st).1.entries).isSome = true := by
  induction cs with
  | nil => intro st h; exact h
  | cons c rest ih =>
    intro st h
    cases c with
    | statError msg => exact h
    | file name ino sym =>
      simp only [insertChildren]
      exact ih _ (emInsert_isSome st.entries ino _ k h)
    | dir name ino sym re gcs =>
      simp only [insertChildren]
      exact ih _ (emInsert_isSome st.entries ino _ k h)

theorem insertChildren_none_transfer {I : Type} (eng : IgnoreEngine I) (parentIno : Nat)
    (dp rp : List String) (cs : List FsNode) :
    ∀ st : WorktreeState,
      IgnoreTransfer st (insertChildren eng parentIno dp rp none cs st).1 := by
  induction cs with
  | nil => intro st; exact ignoreTransfer_refl st
  | cons c rest ih =>
    intro st
    cases c with
    | statError msg => exact ignoreTransfer_refl st
    | file name ino sym =>
      simp only [insertChildren]
      refine ignoreTransfer_trans ?_ (ih (insertFile st (some parentIno) name ino sym
        (fileIgnored eng none (dp ++ [name])) (rp ++ [name])))
      exact ignoreTransfer_insert_ignored rfl rfl
    | dir name ino sym re gcs =>
      simp only [insertChildren]
      refine ignoreTransfer_trans ?_ (ih (insertDir st (some parentIno) name ino sym
        (deriveDirIgnore eng none (dp ++ [name]) name).1))
      exact ignoreTransfer_insert_ignored rfl rfl

theorem scanSubdirs_frame {I : Type} (eng : IgnoreEngine I) (k : Nat) :
    ∀ (n : Nat) (cs : List FsNode), sizeOf cs ≤ n →
      ∀ (pp rp : List String) (ctx : Option I) (st : WorktreeState),
        k ∉ forestInos cs →
        emLookup k (scanSubdirs eng pp rp ctx cs st).1.entries =
          emLookup k st.entries := by
  intro n
  induction n with
  | zero =>
    intro cs hsz
    exfalso
    cases cs with
    | nil => simp only [List.nil.sizeOf_spec] at hsz; omega
    | cons c rest => simp only [List.cons.sizeOf_spec] at hsz; omega
  | succ n ihn =>
    intro cs hsz pp rp ctx st hk
    cases cs with
    | nil => simp [scanSubdirs]
    | cons c rest =>
      have hrest : sizeOf rest ≤ n := sizeOf_tail_le c rest n hsz
      cases c with
      | statError msg => simp [scanSubdirs]
      | file name ino sym =>
        simp only [forestInos, List.mem_cons, not_or] at hk
        simp only [scanSubdirs]
        exact ihn rest hrest pp rp ctx st hk.2
      | dir name ino sym readErr gcs =>
        have hgcs : sizeOf gcs ≤ n := sizeOf_gcs_le name ino sym readErr gcs rest n hsz
        simp only [forestInos, List.mem_cons, List.mem_append, not_or] at hk
        obtain ⟨hkino, hkgcs, hkrest⟩ := hk
        have htop : k ∉ topInos gcs := fun hmem => hkgcs (topInos_sub_forestInos gcs k hmem)
        cases readErr with
        | some e =>
          simp only [scanSubdirs]
          exact ihn rest hrest pp rp ctx st hkrest
        | none =>
          simp only [scanSubdirs]
          rw [ihn rest hrest pp rp ctx _ hkrest]
          rw [ihn gcs hgcs (pp ++ [name]) (rp ++ [name]) _ _ hkgcs]
          split
          · show emLookup k (emSetChildren _ ino _) = emLookup k st.entries
            rw [emLookup_setChildren_ne _ ino k _ hkino]
            exact insertChildren_frame eng ino (pp ++ [name]) (rp ++ [name]) _ gcs k st htop
          · exact insertChildren_frame eng ino (pp ++ [name]) (rp ++ [name]) _ gcs k st htop

theorem scanSubdirs_rootIno {I : Type} (eng : IgnoreEngine I) :
    ∀ (n : Nat) (cs : List FsNode), sizeOf cs ≤ n →
      ∀ (pp rp : List String) (ctx : Option I) (st : WorktreeState),
        (scanSubdirs eng pp rp ctx cs st).1.rootIno = st.rootIno := by
  intro n
  induction n with
  | zero =>
    intro cs hsz
    exfalso
    cases cs with
    | nil => simp only [List.nil.sizeOf_spec] at hsz; omega
    | cons c rest => simp only [List.cons.sizeOf_spec] at hsz; omega
  | succ n ihn =>
    intro cs hsz pp rp ctx st
    cases cs with
    | nil => simp [scanSubdirs]
    | cons c rest =>
      have hrest : sizeOf rest ≤ n := sizeOf_tail_le c rest n hsz
      cases c with
      | statError msg => simp [scanSubdirs]
      | file name ino sym =>
        simp only [scanSubdirs]
        exact ihn rest hrest pp rp ctx st
      | dir name ino sym readErr gcs =>
        have hgcs : sizeOf gcs ≤ n := sizeOf_gcs_le name ino sym readErr gcs rest n hsz
        cases readErr with
        | some e =>
          simp only [scanSubdirs]
          exact ihn rest hrest pp rp ctx st
        | none =>
          simp only [scanSubdirs]
          rw [ihn rest hrest pp rp ctx _]
          rw [ihn gcs hgcs (pp ++ [name]) (rp ++ [name]) _ _]
          split
          · show (insertChildren eng ino (pp ++ [name]) (rp ++ [name]) _ gcs st).1.rootIno
              = st.rootIno
            exact insertChildren_rootIno eng ino (pp ++ [name]) (rp ++ [name]) _ gcs st
          · exact insertChildren_rootIno eng ino (pp ++ [name]) (rp ++ [name]) _ gcs st

theorem scanSubdirs_isSome {I : Type} (eng : IgnoreEngine I) (k : Nat) :
    ∀ (n : Nat) (cs : List FsNode), sizeOf cs ≤ n →
      ∀ (pp rp : List String) (ctx : Option I) (st : WorktreeState),
        (emLookup k st.entries).isSome = true →
        (emLookup k (scanSubdirs eng pp rp ctx cs st).1.entries).isSome = true := by
  intro n
  induction n with
  | zero =>
    intro cs hsz
    exfalso
    cases cs with
    | nil => simp only [List.nil.sizeOf_spec] at hsz; omega
    | cons c rest => simp only [List.cons.sizeOf_spec] at hsz; omega
  | succ n ihn =>
    intro cs hsz pp rp ctx st hsome
    cases cs with
    | nil => simpa [scanSubdirs] using hsome
    | cons c rest =>
      have hrest : sizeOf rest ≤ n := sizeOf_tail_le c rest n hsz
      cases c with
      | statError msg => simpa [scanSubdirs] using hsome
      | file name ino sym =>
        simp only [scanSubdirs]
        exact ihn rest hrest pp rp ctx st hsome
      | dir name ino sym readErr gcs =>
        have hgcs : sizeOf gcs ≤ n := sizeOf_gcs_le name ino sym readErr gcs rest n hsz
        cases readErr with
        | some e =>
          simp only [scanSubdirs]
          exact ihn rest hrest pp rp ctx st hsome
        | none =>
          simp only [scanSubdirs]
          refine ihn rest hrest pp rp ctx _ ?_
          refine ihn gcs hgcs (pp ++ [name]) (rp ++ [name]) _ _ ?_
          have h1 : (emLookup k (insertChildren eng ino (pp ++ [name]) (rp ++ [name])
              ((deriveDirIgnore eng ctx (pp ++ [name]) name).2) gcs st).1.entries).isSome = true :=
            insertChildren_isSome eng ino (pp ++ [name]) (rp ++ [name]) _ gcs k st hsome
          split
          · exact emSetChildren_isSome _ ino _ k h1
          · exact h1

theorem scanSubdirs_none_transfer {I : Type} (eng : IgnoreEngine I) :
    ∀ (n : Nat) (cs : List FsNode), sizeOf cs ≤ n →
      ∀ (pp rp : List String) (st : WorktreeState),
        IgnoreTransfer st (scanSubdirs eng pp rp none cs st).1 := by
  intro n
  induction n with
  | zero =>
    intro cs hsz
    exfalso
    cases cs with
    | nil => simp only [List.nil.sizeOf_spec] at hsz; omega
    | cons c rest => simp only [List.cons.sizeOf_spec] at hsz; omega
  | succ n ihn =>
    intro cs hsz pp rp st
    cases cs with
    | nil => simpa [scanSubdirs] using ignoreTransfer_refl st
    | cons c rest =>
      have hrest : sizeOf rest ≤ n := sizeOf_tail_le c rest n hsz
      cases c with
      | statError msg => simpa [scanSubdirs] using ignoreTransfer_refl st
      | file name ino sym =>
        simp only [scanSubdirs]
        exact ihn rest hrest pp rp st
      | dir name ino sym readErr gcs =>
        have hgcs : sizeOf gcs ≤ n := sizeOf_gcs_le name ino sym readErr gcs rest n hsz
        cases readErr with
        | some e =>
          simp only [scanSubdirs]
          exact ihn rest hrest pp rp st
        | none =>
          simp only [scanSubdirs]
          refine ignoreTransfer_trans ?_ (ihn rest hrest pp rp _)
          refine ignoreTransfer_trans ?_ (ihn gcs hgcs (pp ++ [name]) (rp ++ [name]) _)
          refine ignoreTransfer_trans
            (insertChildren_none_transfer eng ino (pp ++ [name]) (rp ++ [name]) gcs st) ?_
          split
          · exact ignoreTransfer_setChildren rfl
          · exact ignoreTransfer_refl _

theorem scanDirLevel_none_transfer {I : Type} (eng : IgnoreEngine I) (ino : Nat)
    (path rel : List String) (readErr : Option String) (cs : List FsNode)
    (st : WorktreeState) :
    IgnoreTransfer st (scanDirLevel eng ino path rel none readErr cs st).1 := by
  cases readErr with
  | some e => exact ignoreTransfer_refl st
  | none =>
    simp only [scanDirLevel]
    refine ignoreTransfer_trans ?_
      (scanSubdirs_none_transfer eng (sizeOf cs) cs le_rfl path rel _)
    refine ignoreTransfer_trans (insertChildren_none_transfer eng ino path rel cs st) ?_
    split
    · exact ignoreTransfer_setChildren rfl
    · exact ignoreTransfer_refl _

theorem scanDirLevel_isSome {I : Type} (eng : IgnoreEngine I) (ino : Nat)
    (path rel : List String) (ctx : Option I) (readErr : Option String)
    (cs : List FsNode) (st : WorktreeState) (k : Nat)
    (h : (emLookup k st.entries).isSome = true) :
    (emLookup k (scanDirLevel eng ino path rel ctx readErr cs st).1.entries).isSome = true := by
  cases readErr with
  | some e => exact h
  | none =>
    simp only [scanDirLevel]
    refine scanSubdirs_isSome eng k (sizeOf cs) cs le_rfl path rel ctx _ ?_
    have h1 := insertChildren_isSome eng ino path rel ctx cs k st h
    split
    · exact emSetChildren_isSome _ ino _ k h1
    · exact h1

theorem scanDirLevel_rootIno {I : Type} (eng : IgnoreEngine I) (ino : Nat)
    (path rel : List String) (ctx : Option I) (readErr : Option String)
    (cs : List FsNode) (st : WorktreeState) :
    (scanDirLevel eng ino path rel ctx readErr cs st).1.rootIno = st.rootIno := by
  cases readErr with
  | some e => rfl
  | none =>
    simp only [scanDirLevel]
    rw [scanSubdirs_rootIno eng (sizeOf cs) cs le_rfl path rel ctx _]
    split
    · show (insertChildren eng ino path rel ctx cs st).1.rootIno = st.rootIno
      exact insertChildren_rootIno eng ino path rel ctx cs st
    · exact insertChildren_rootIno eng ino path rel ctx cs st

theorem scanDirLevel_parent_entry {I : Type} (eng : IgnoreEngine I) (ino : Nat)
    (path rel : List String) (ctx : Option I) (readErr : Option String)
    (cs : List FsNode) (st : WorktreeState) (par : Option Nat) (nm : String)
    (sym ig : Bool) (hfresh : ino ∉ forestInos cs)
    (hent : emLookup ino st.entries = some (.dir par nm ino sym ig [])) :
    ∃ cl, emLookup ino (scanDirLevel eng ino path rel ctx readErr cs st).1.entries =
      some (.dir par nm ino sym ig cl) := by
  cases readErr with
  | some e => exact ⟨[], hent⟩
  | none =>
    simp only [scanDirLevel]
    have htop : ino ∉ topInos cs := fun hm => hfresh (topInos_sub_forestInos cs ino hm)
    rw [scanSubdirs_frame eng ino (sizeOf cs) cs le_rfl path rel ctx _ hfresh]
    have h1 : emLookup ino (insertChildren eng ino path rel ctx cs st).1.entries =
        some (.dir par nm ino sym ig []) := by
      rw [insertChildren_frame eng ino path rel ctx cs ino st htop]
      exact hent
    split
    · exact ⟨_, emLookup_setChildren_dir _ ino _ par nm ino sym ig [] h1⟩
    · exact ⟨[], h1⟩

/-- The concrete engine that never reports an ignore match (used by
counterexamples and witnesses). -/
def noIgnoreEngine : IgnoreEngine Unit :=
  { baseFromParents := fun _ => (), addChild := fun _ _ => (),
    isIgnoreMatch := fun _ _ _ => false }

/-- The concrete engine that reports an ignore match for exactly the path
`["r"]` — the scan root in the counterexample — and nothing else. -/
def rootOnlyIgnoreEngine : IgnoreEngine Unit :=
  { baseFromParents := fun _ => (), addChild := fun _ _ => (),
    isIgnoreMatch := fun _ p _ => p == ["r"] }

/-- Downward monotonicity of the ignored flag along parent links, as the
claim asserts it of every scan result: an entry whose parent entry is
ignored is itself ignored. -/
def IgnoreMonotone (st : WorktreeState) : Prop :=
  ∀ k v kp vp, emLookup k st.entries = some v → v.parent = some kp →
    emLookup kp st.entries = some vp → vp.ignored = true → v.ignored = true

/-- C2 amended: within `scan_dir` ignoring is monotone downward — (i) a job
whose ignore context is absent only ever inserts ignored entries, files and
subdirectories alike (any entry of the resulting state is ignored or was
already present with the same flag); (ii) an ignored subdirectory's job
carries no ignore context; (iii) under an absent context both the directory
and the file derivations force the ignored flag.  The claim's universal
downward monotonicity is refuted at the scan root by
`scan_ignore_monotone_cex`: the root's job always carries a context. -/
theorem scan_ignore_monotone_amended :
    (∀ (I : Type) (eng : IgnoreEngine I) (ino : Nat) (path rel : List String)
        (readErr : Option String) (cs : List FsNode) (st : WorktreeState)
        (k : Nat) (v : Entry),
        emLookup k (scanDirLevel eng ino path rel none readErr cs st).1.entries = some v →
        v.ignored = true ∨
          ∃ v0, emLookup k st.entries = some v0 ∧ v0.ignored = v.ignored) ∧
    (∀ (I : Type) (eng : IgnoreEngine I) (ctx : Option I) (path : List String)
        (name : String),
        (deriveDirIgnore eng ctx path name).1 = true →
        (deriveDirIgnore eng ctx path name).2 = none) ∧
    (∀ (I : Type) (eng : IgnoreEngine I) (path : List String) (name : String),
        (deriveDirIgnore eng none path name).1 = true ∧
        fileIgnored eng none path = true) := by
  refine ⟨?_, ?_, ?_⟩
  · intro I eng ino path rel readErr cs st k v h
    exact scanDirLevel_none_transfer eng ino path rel readErr cs st k v h
  · intro I eng ctx path name hig
    cases ctx with
    | none => rfl
    | some parentIgnore =>
      simp only [deriveDirIgnore] at hig ⊢
      simp [hig]
  · intro I eng path name
    exact ⟨rfl, rfl⟩

/-- C2 amended witness: a no-context `scan_dir` job over one file inserts
it ignored, and an ignored subdirectory (here the forced `.git` case under
a live context) receives no child context. -/
theorem scan_ignore_monotone_amended_witness :
    ((Entry.file (some 1) "f" 2 false true).ignored = true ∨
      ∃ v0, emLookup 2 (newState 1 ["r"]).entries = some v0 ∧
        v0.ignored = (Entry.file (some 1) "f" 2 false true).ignored) ∧
    (deriveDirIgnore rootOnlyIgnoreEngine (some ()) ["r", "sub"] ".git").2 = none := by
  constructor
  · exact scan_ignore_monotone_amended.1 Unit noIgnoreEngine 1 ["r"] ["r"] none
      [.file "f" 2 false] (newState 1 ["r"]) 2 (.file (some 1) "f" 2 false true)
      (by simp [scanDirLevel, insertChildren, scanSubdirs, insertFile, fileIgnored,
        newState, emInsert, emRemove, emSetChildren, emLookup, pathText])
  · exact scan_ignore_monotone_amended.2.1 Unit rootOnlyIgnoreEngine (some ())
      ["r", "sub"] ".git" rfl

/-- C2 counterexample: scanning a root directory that the ignore engine
itself matches as ignored yields an ignored root whose child file is NOT
ignored: the root's scan job unconditionally carries `Some(ignore)`
(`scan_dirs`, worktree.rs line 125), so no downward inheritance happens at
the root and the claimed monotonicity fails for the scan as a whole. -/
theorem scan_ignore_monotone_cex :
    ¬ IgnoreMonotone (runScan rootOnlyIgnoreEngine
        (.dir "r" 1 false none [.file "f" 2 false]) (newState 1 ["r"])).state := by
  intro h
  have e2 : emLookup 2 (runScan rootOnlyIgnoreEngine
      (.dir "r" 1 false none [.file "f" 2 false]) (newState 1 ["r"])).state.entries =
      some (.file (some 1) "f" 2 false false) := by
    simp [runScan, scanDirs, scanDirLevel, insertChildren, scanSubdirs, insertFile,
      insertDir, fileIgnored, deriveDirIgnore, newState, rootName, emInsert, emRemove,
      emSetChildren, rootOnlyIgnoreEngine, pathText, emLookup]
  have e1 : emLookup 1 (runScan rootOnlyIgnoreEngine
      (.dir "r" 1 false none [.file "f" 2 false]) (newState 1 ["r"])).state.entries =
      some (.dir none "r" 1 false true [2]) := by
    simp [runScan, scanDirs, scanDirLevel, insertChildren, scanSubdirs, insertFile,
      insertDir, fileIgnored, deriveDirIgnore, newState, rootName, emInsert, emRemove,
      emSetChildren, rootOnlyIgnoreEngine, pathText, emLookup]
  have hxy := h 2 _ 1 _ e2 rfl e1 rfl
  simp [Entry.ignored] at hxy

/-- A root directory whose first subdirectory hits a failing stat while
being listed, and whose second subdirectory is healthy. -/
def errCaseTree : FsNode :=
  .dir "r" 1 false none
    [.dir "a" 2 false none [.statError "boom"],
     .dir "b" 3 false none [.file "y" 4 false]]

/-- C3 amended: when an I/O error occurs in some branch, only that branch
stops — (i) the scan as a whole still transitions the scan state to Idle;
(ii) entries already inserted are never removed; (iii) but the root's
identity is NOT recorded: `scan_dirs` `?`-propagates the collected worker
errors before the `root_ino` assignment, so an errored scan leaves the
root id unchanged (recording happens only in error-free runs).  The
original claim's "root is recorded" clause is refuted by
`scan_error_root_not_recorded_cex`. -/
theorem scan_error_isolated_amended :
    (∀ (I : Type) (eng : IgnoreEngine I) (root : FsNode) (st0 : WorktreeState),
        (runScan eng root st0).state.scanState = ScanState.Idle) ∧
    (∀ (I : Type) (eng : IgnoreEngine I) (root : FsNode) (st0 : WorktreeState) (k : Nat),
        (emLookup k st0.entries).isSome = true →
        (emLookup k (scanDirs eng root st0).state.entries).isSome = true) ∧
    (∀ (I : Type) (eng : IgnoreEngine I) (root : FsNode) (st0 : WorktreeState),
        (scanDirs eng root st0).error ≠ none →
        (scanDirs eng root st0).state.rootIno = st0.rootIno) := by
  refine ⟨?_, ?_, ?_⟩
  · intro I eng root st0
    rfl
  · intro I eng root st0 k h
    cases root with
    | statError msg => exact h
    | file name ino sym =>
      simp only [scanDirs]
      exact emInsert_isSome st0.entries ino _ k h
    | dir name ino sym readErr cs =>
      simp only [scanDirs]
      have h1 : (emLookup k (insertDir st0 none (rootName st0.path) ino sym
          (eng.isIgnoreMatch (eng.addChild (eng.baseFromParents st0.path) st0.path)
            st0.path true || rootName st0.path == ".git")).entries).isSome = true :=
        emInsert_isSome st0.entries ino _ k h
      have h2 := scanDirLevel_isSome eng ino st0.path [rootName st0.path]
        (some (eng.addChild (eng.baseFromParents st0.path) st0.path)) readErr cs _ k h1
      split <;> exact h2
  · intro I eng root st0 herr
    cases root with
    | statError msg => rfl
    | file name ino sym => simp [scanDirs] at herr
    | dir name ino sym readErr cs =>
      simp only [scanDirs] at herr ⊢
      have hri := scanDirLevel_rootIno eng ino st0.path [rootName st0.path]
        (some (eng.addChild (eng.baseFromParents st0.path) st0.path)) readErr cs
        (insertDir st0 none (rootName st0.path) ino sym
          (eng.isIgnoreMatch (eng.addChild (eng.baseFromParents st0.path) st0.path)
            st0.path true || rootName st0.path == ".git"))
      split at herr
      · simp at herr
      · simpa [insertDir] using hri

/-- C3 amended witness: on the concrete errored tree the scan still reaches
Idle and leaves the root id unrecorded; a pre-existing entry survives a
fresh scan of a plain-file root. -/
theorem scan_error_isolated_amended_witness :
    (runScan noIgnoreEngine errCaseTree (newState 1 ["r"])).state.scanState =
      ScanState.Idle ∧
    (emLookup 1 (scanDirs noIgnoreEngine (.file "x" 9 false)
      exampleTreeState).state.entries).isSome = true ∧
    (scanDirs noIgnoreEngine errCaseTree (newState 1 ["r"])).state.rootIno =
      (newState 1 ["r"]).rootIno := by
  refine ⟨?_, ?_, ?_⟩
  · exact scan_error_isolated_amended.1 Unit noIgnoreEngine errCaseTree (newState 1 ["r"])
  · exact scan_error_isolated_amended.2.1 Unit noIgnoreEngine (.file "x" 9 false)
      exampleTreeState 1 rfl
  · refine scan_error_isolated_amended.2.2 Unit noIgnoreEngine errCaseTree
      (newState 1 ["r"]) ?_
    simp [scanDirs, scanDirLevel, insertChildren, scanSubdirs, insertFile, insertDir,
      fileIgnored, deriveDirIgnore, newState, rootName, emInsert, emRemove,
      emSetChildren, noIgnoreEngine, pathText, emLookup, errCaseTree]

/-- C3 counterexample: on the errored tree the walk completes (state Idle),
the healthy sibling branch is fully populated, the error is reported — and
the root's identity is NOT recorded, contradicting the claim that the root
is recorded as the confirmed root entry once the walk completes. -/
theorem scan_error_root_not_recorded_cex :
    (scanDirs noIgnoreEngine errCaseTree (newState 1 ["r"])).error = some "boom" ∧
    (scanDirs noIgnoreEngine errCaseTree (newState 1 ["r"])).state.rootIno = none ∧
    emLookup 4 (scanDirs noIgnoreEngine errCaseTree (newState 1 ["r"])).state.entries =
      some (.file (some 3) "y" 4 false false) ∧
    (runScan noIgnoreEngine errCaseTree (newState 1 ["r"])).state.scanState =
      ScanState.Idle := by
  refine ⟨?_, ?_, ?_, ?_⟩ <;>
    simp [runScan, scanDirs, scanDirLevel, insertChildren, scanSubdirs, insertFile,
      insertDir, fileIgnored, deriveDirIgnore, newState, rootName, emInsert, emRemove,
      emSetChildren, noIgnoreEngine, pathText, emLookup, errCaseTree]

/-- Every entry whose parent is a directory named `.git` is marked ignored:
the observable consequence, for scan results, of "a forced-ignored
directory never receives a child ignore context" (children listed without
a context are always marked ignored). -/
def GitChildrenIgnored (st : WorktreeState) : Prop :=
  ∀ k v kp vp, emLookup k st.entries = some v → v.parent = some kp →
    emLookup kp st.entries = some vp → vp.name = ".git" → v.ignored = true

/-- C6 amended: (i) any directory named `.git` is forced ignored by the
derivation regardless of the pattern match, and the scan root named `.git`
is likewise inserted ignored; (ii) a forced-ignored directory discovered by
`scan_dir` receives no child ignore context.  For the scan root the claim
fails: the root's job always carries the root ignore context even when the
root is named `.git` (`git_root_receives_context_cex`). -/
theorem git_forced_ignore_amended :
    (∀ (I : Type) (eng : IgnoreEngine I) (ctx : Option I) (path : List String),
        (deriveDirIgnore eng ctx path ".git").1 = true) ∧
    (∀ (I : Type) (eng : IgnoreEngine I) (ctx : Option I) (path : List String)
        (name : String),
        (deriveDirIgnore eng ctx path name).1 = true →
        (deriveDirIgnore eng ctx path name).2 = none) ∧
    (∀ (I : Type) (eng : IgnoreEngine I) (ino : Nat) (sym : Bool) (nodeName : String)
        (readErr : Option String) (cs : List FsNode) (st0 : WorktreeState),
        rootName st0.path = ".git" → ino ∉ forestInos cs →
        ∃ cl, emLookup ino (scanDirs eng (.dir nodeName ino sym readErr cs) st0).state.entries =
          some (.dir none ".git" ino sym true cl)) := by
  refine ⟨?_, ?_, ?_⟩
  · intro I eng ctx path
    cases ctx with
    | none => rfl
    | some parentIgnore => simp [deriveDirIgnore]
  · intro I eng ctx path name hig
    cases ctx with
    | none => rfl
    | some parentIgnore =>
      simp only [deriveDirIgnore] at hig ⊢
      simp [hig]
  · intro I eng ino sym nodeName readErr cs st0 hname hfresh
    have hig : (eng.isIgnoreMatch (eng.addChild (eng.baseFromParents st0.path) st0.path)
        st0.path true || rootName st0.path == ".git") = true := by
      rw [hname]
      simp
    have hent : emLookup ino (insertDir st0 none (rootName st0.path) ino sym
        (eng.isIgnoreMatch (eng.addChild (eng.baseFromParents st0.path) st0.path)
          st0.path true || rootName st0.path == ".git")).entries =
        some (.dir none ".git" ino sym true []) := by
      simp only [insertDir]
      rw [emLookup_insert_self, hig, hname]
    obtain ⟨cl, hcl⟩ := scanDirLevel_parent_entry eng ino st0.path [rootName st0.path]
      (some (eng.addChild (eng.baseFromParents st0.path) st0.path)) readErr cs _
      none ".git" sym true hfresh hent
    refine ⟨cl, ?_⟩
    simp only [scanDirs]
    split <;> simpa using hcl

/-- C6 amended witness: the `.git` derivation forces ignoring under a live
context, forced-ignored directories get no child context, and a scan whose
root path ends in `.git` inserts the root ignored. -/
theorem git_forced_ignore_amended_witness :
    (deriveDirIgnore noIgnoreEngine (some ()) ["a", ".git"] ".git").1 = true ∧
    (deriveDirIgnore rootOnlyIgnoreEngine (some ()) ["r"] "sub").2 = none ∧
    ∃ cl, emLookup 1 (scanDirs noIgnoreEngine
        (.dir "z" 1 false none [.file "f" 2 false]) (newState 1 [".git"])).state.entries =
      some (.dir none ".git" 1 false true cl) := by
  refine ⟨?_, ?_, ?_⟩
  · exact git_forced_ignore_amended.1 Unit noIgnoreEngine (some ()) ["a", ".git"]
  · exact git_forced_ignore_amended.2.1 Unit rootOnlyIgnoreEngine (some ()) ["r"] "sub" rfl
  · exact git_forced_ignore_amended.2.2 Unit noIgnoreEngine 1 false "z" none
      [.file "f" 2 false] (newState 1 [".git"]) rfl (by simp [forestInos])

/-- C6 counterexample: a scan whose root is named `.git` marks the root
ignored, yet its child file ends up NOT ignored — the root's job carries
the root's ignore context (worktree.rs line 125) even though the root is
forced ignored, so children of the forced-ignored root are matched against
a real context instead of being ignored by inheritance. -/
theorem git_root_receives_context_cex :
    ¬ GitChildrenIgnored (runScan noIgnoreEngine
        (.dir ".git" 1 false none [.file "f" 2 false]) (newState 1 [".git"])).state := by
  intro h
  have e2 : emLookup 2 (runScan noIgnoreEngine
      (.dir ".git" 1 false none [.file "f" 2 false]) (newState 1 [".git"])).state.entries =
      some (.file (some 1) "f" 2 false false) := by
    simp [runScan, scanDirs, scanDirLevel, insertChildren, scanSubdirs, insertFile,
      insertDir, fileIgnored, deriveDirIgnore, newState, rootName, emInsert, emRemove,
      emSetChildren, noIgnoreEngine, pathText, emLookup]
  have e1 : emLookup 1 (runScan noIgnoreEngine
      (.dir ".git" 1 false none [.file "f" 2 false]) (newState 1 [".git"])).state.entries =
      some (.dir none ".git" 1 false true [2]) := by
    simp [runScan, scanDirs, scanDirLevel, insertChildren, scanSubdirs, insertFile,
      insertDir, fileIgnored, deriveDirIgnore, newState, rootName, emInsert, emRemove,
      emSetChildren, noIgnoreEngine, pathText, emLookup]
  have hxy := h 2 _ 1 _ e2 rfl e1 rfl
  simp [Entry.ignored] at hxy

/-- C8: when the root path refers to a plain file rather than a directory,
the scan inserts exactly one entry — a File entry with no parent, named by
the root path's final component — the file count is 1, the scan succeeds,
and the worker pool and job queue are never created. -/
theorem scan_file_root_single_entry :
    ∀ (I : Type) (eng : IgnoreEngine I) (name : String) (ino : Nat) (sym : Bool)
      (st0 : WorktreeState), st0.entries = [] → st0.filePaths = [] →
      entryCount (scanDirs eng (.file name ino sym) st0).state = 1 ∧
      fileCount (scanDirs eng (.file name ino sym) st0).state = 1 ∧
      emLookup ino (scanDirs eng (.file name ino sym) st0).state.entries =
        some (.file none (rootName st0.path) ino sym
          (eng.isIgnoreMatch (eng.baseFromParents st0.path) st0.path false)) ∧
      (scanDirs eng (.file name ino sym) st0).poolCreated = false ∧
      (scanDirs eng (.file name ino sym) st0).error = none := by
  intro I eng name ino sym st0 hent hfp
  refine ⟨?_, ?_, ?_, ?_, ?_⟩ <;>
    simp [scanDirs, insertFile, entryCount, fileCount, emInsert, emRemove, hent, hfp,
      emLookup]

/-- C8 witness: scanning the plain-file root `d/x` produces the single
un-parented file entry, counts 1/1, no error and no worker pool. -/
theorem scan_file_root_single_entry_witness :
    entryCount (scanDirs noIgnoreEngine (.file "x" 5 false) (newState 3 ["d", "x"])).state = 1 ∧
    fileCount (scanDirs noIgnoreEngine (.file "x" 5 false) (newState 3 ["d", "x"])).state = 1 ∧
    emLookup 5 (scanDirs noIgnoreEngine (.file "x" 5 false)
      (newState 3 ["d", "x"])).state.entries = some (.file none "x" 5 false false) ∧
    (scanDirs noIgnoreEngine (.file "x" 5 false) (newState 3 ["d", "x"])).poolCreated = false ∧
    (scanDirs noIgnoreEngine (.file "x" 5 false) (newState 3 ["d", "x"])).error = none :=
  scan_file_root_single_entry Unit noIgnoreEngine "x" 5 false (newState 3 ["d", "x"]) rfl rfl

/-- The entry `scan_dir` inserts for each listed child during the listing
phase, before any child list is finalized: files carry their final flags,
directories are inserted with an empty child list. -/
def topMirror0 {I : Type} (eng : IgnoreEngine I) (parentIno : Nat)
    (dirPath : List String) (ctx : Option I) : List FsNode → EntryMap
  | [] => []
  | .file n i s :: r =>
      (i, .file (some parentIno) n i s (fileIgnored eng ctx (dirPath ++ [n]))) ::
        topMirror0 eng parentIno dirPath ctx r
  | .statError _ :: _ => []
  | .dir n i s _ _ :: r =>
      (i, .dir (some parentIno) n i s (deriveDirIgnore eng ctx (dirPath ++ [n]) n).1 []) ::
        topMirror0 eng parentIno dirPath ctx r

/-- The final entry-map fragment an error-free scan produces for a forest
under a given parent: each file's entry, and each directory's entry with
its finalized child list followed by the fragment of its own subtree. -/
def mirrorForest {I : Type} (eng : IgnoreEngine I) (parentIno : Nat)
    (dirPath : List String) (ctx : Option I) : List FsNode → EntryMap
  | [] => []
  | .file n i s :: r =>
      (i, .file (some parentIno) n i s (fileIgnored eng ctx (dirPath ++ [n]))) ::
        mirrorForest eng parentIno dirPath ctx r
  | .statError _ :: _ => []
  | .dir n i s _ gcs :: r =>
      (i, .dir (some parentIno) n i s (deriveDirIgnore eng ctx (dirPath ++ [n]) n).1
          (topInos gcs)) ::
        (mirrorForest eng i (dirPath ++ [n])
            (deriveDirIgnore eng ctx (dirPath ++ [n]) n).2 gcs ++
          mirrorForest eng parentIno dirPath ctx r)

/-- The fragment contributed strictly below the top level of a listing. -/
def deepMirror {I : Type} (eng : IgnoreEngine I) (dirPath : List String)
    (ctx : Option I) : List FsNode → EntryMap
  | [] => []
  | .file _ _ _ :: r => deepMirror eng dirPath ctx r
  | .statError _ :: _ => []
  | .dir n i _ _ gcs :: r =>
      mirrorForest eng i (dirPath ++ [n])
          (deriveDirIgnore eng ctx (dirPath ++ [n]) n).2 gcs ++
        deepMirror eng dirPath ctx r

/-- The children finalization the subdirectory jobs of one listing perform
on that listing's top-level directory entries. -/
def finalizedAt : List FsNode → Nat → Entry → Entry
  | [], _, e => e
  | .file _ _ _ :: r, k, e => finalizedAt r k e
  | .statError _ :: _, _, e => e
  | .dir _ i _ _ gcs :: r, k, e =>
      if k = i then
        match e with
        | .dir par n j sym ig _ => .dir par n j sym ig (topInos gcs)
        | e' => e'
      else finalizedAt r k e

theorem emLookup_append (A B : EntryMap) (k : Nat) :
    emLookup k (A ++ B) = match emLookup k A with
      | some v => some v
      | none => emLookup k B := by
  induction A with
  | nil => simp [emLookup]
  | cons p rest ih =>
    by_cases hp : p.1 = k <;> simp [emLookup, hp, ih]

theorem topMirror0_keys {I : Type} (eng : IgnoreEngine I) (D : Nat) (pp : List String)
    (ctx : Option I) : ∀ (cs : List FsNode) (k : Nat) (v : Entry),
    emLookup k (topMirror0 eng D pp ctx cs) = some v → k ∈ topInos cs := by
  intro cs
  induction cs with
  | nil => intro k v h; simp [topMirror0] at h
  | cons c rest ih =>
    intro k v h
    cases c with
    | statError msg => simp [topMirror0] at h
    | file n i s =>
      simp only [topMirror0, emLookup_cons] at h
      by_cases hk : i = k
      · simp [topInos, hk]
      · simp only [if_neg hk] at h
        simp [topInos, ih k v h]
    | dir n i s re gcs =>
      simp only [topMirror0, emLookup_cons] at h
      by_cases hk : i = k
      · simp [topInos, hk]
      · simp only [if_neg hk] at h
        simp [topInos, ih k v h]

theorem topMirror0_none {I : Type} (eng : IgnoreEngine I) (D : Nat) (pp : List String)
    (ctx : Option I) (cs : List FsNode) (k : Nat) (hk : k ∉ topInos cs) :
    emLookup k (topMirror0 eng D pp ctx cs) = none := by
  cases hv : emLookup k (topMirror0 eng D pp ctx cs) with
  | none => rfl
  | some v => exact absurd (topMirror0_keys eng D pp ctx cs k v hv) hk

theorem topMirror0_total {I : Type} (eng : IgnoreEngine I) (D : Nat) (pp : List String)
    (ctx : Option I) : ∀ (cs : List FsNode) (k : Nat), k ∈ topInos cs →
    (emLookup k (topMirror0 eng D pp ctx cs)).isSome = true := by
  intro cs
  induction cs with
  | nil => intro k hk; simp [topInos] at hk
  | cons c rest ih =>
    intro k hk
    cases c with
    | statError msg => simp [topInos] at hk
    | file n i s =>
      simp only [topInos, List.mem_cons] at hk
      simp only [topMirror0, emLookup_cons]
      by_cases hik : i = k
      · simp [hik]
      · rcases hk with hk | hk
        · exact absurd hk.symm hik
        · simp only [if_neg hik]
          exact ih k hk
    | dir n i s re gcs =>
      simp only [topInos, List.mem_cons] at hk
      simp only [topMirror0, emLookup_cons]
      by_cases hik : i = k
      · simp [hik]
      · rcases hk with hk | hk
        · exact absurd hk.symm hik
        · simp only [if_neg hik]
          exact ih k hk

theorem finalizedAt_id (cs : List FsNode) (k : Nat) (hk : k ∉ topInos cs) (e : Entry) :
    finalizedAt cs k e = e := by
  induction cs with
  | nil => rfl
  | cons c rest ih =>
    cases c with
    | statError msg => rfl
    | file n i s =>
      simp only [topInos, List.mem_cons, not_or] at hk
      exact ih hk.2
    | dir n i s re gcs =>
      simp only [topInos, List.mem_cons, not_or] at hk
      simp only [finalizedAt, if_neg hk.1]
      exact ih hk.2

theorem forestOk_statOk (cs : List FsNode) (h : forestOk cs = true) : statOk cs = true := by
  induction cs with
  | nil => rfl
  | cons c rest ih =>
    cases c with
    | statError msg => simp [forestOk] at h
    | file n i s =>
      simp only [forestOk] at h
      simp only [statOk]
      exact ih h
    | dir n i s re gcs =>
      simp only [forestOk, Bool.and_eq_true] at h
      simp only [statOk]
      exact ih h.2

theorem forestOk_dir_parts (n : String) (i : Nat) (s : Bool) (re : Option String)
    (gcs rest : List FsNode) (h : forestOk (.dir n i s re gcs :: rest) = true) :
    re = none ∧ forestOk gcs = true ∧ forestOk rest = true := by
  simp only [forestOk, Bool.and_eq_true, Option.isNone_iff_eq_none] at h
  exact ⟨h.1.1, h.1.2, h.2⟩

theorem topInos_sublist (cs : List FsNode) : List.Sublist (topInos cs) (forestInos cs) := by
  induction cs with
  | nil => simp [topInos, forestInos]
  | cons c rest ih =>
    cases c with
    | statError msg => simp [topInos, forestInos]
    | file n i s =>
      simp only [topInos, forestInos]
      exact ih.cons₂ i
    | dir n i s re gcs =>
      simp only [topInos, forestInos]
      exact (ih.trans (List.sublist_append_right _ _)).cons₂ i

theorem nodup_top_of_forest (cs : List FsNode) (h : (forestInos cs).Nodup) :
    (topInos cs).Nodup := h.sublist (topInos_sublist cs)

theorem nodup_dir_parts (n : String) (i : Nat) (s : Bool) (re : Option String)
    (gcs rest : List FsNode)
    (h : (forestInos (.dir n i s re gcs :: rest)).Nodup) :
    (forestInos gcs).Nodup ∧ (forestInos rest).Nodup ∧ i ∉ forestInos gcs ∧
      i ∉ forestInos rest ∧ ∀ x ∈ forestInos gcs, x ∉ forestInos rest := by
  simp only [forestInos, List.nodup_cons, List.mem_append, not_or,
    List.nodup_append] at h
  exact ⟨h.2.1, h.2.2.1, h.1.1, h.1.2, h.2.2.2⟩

theorem insertChildren_ok {I : Type} (eng : IgnoreEngine I) (D : Nat)
    (pp rp : List String) (ctx : Option I) :
    ∀ (cs : List FsNode), statOk cs = true → ∀ st : WorktreeState,
      (insertChildren eng D pp rp ctx cs st).2.2 = [] ∧
      (insertChildren eng D pp rp ctx cs st).2.1 = topInos cs := by
  intro cs
  induction cs with
  | nil => intro h st; exact ⟨rfl, rfl⟩
  | cons c rest ih =>
    intro h st
    cases c with
    | statError msg => simp [statOk] at h
    | file n i s =>
      simp only [statOk] at h
      simp only [insertChildren, topInos]
      exact ⟨(ih h _).1, by rw [(ih h _).2]⟩
    | dir n i s re gcs =>
      simp only [statOk] at h
      simp only [insertChildren, topInos]
      exact ⟨(ih h _).1, by rw [(ih h _).2]⟩

theorem mirrorForest_keys {I : Type} (eng : IgnoreEngine I) :
    ∀ (n : Nat) (cs : List FsNode), sizeOf cs ≤ n →
      ∀ (D : Nat) (pp : List String) (ctx : Option I) (k : Nat) (v : Entry),
        emLookup k (mirrorForest eng D pp ctx cs) = some v → k ∈ forestInos cs := by
  intro n
  induction n with
  | zero =>
    intro cs hsz
    exfalso
    cases cs with
    | nil => simp only [List.nil.sizeOf_spec] at hsz; omega
    | cons c rest => simp only [List.cons.sizeOf_spec] at hsz; omega
  | succ n ihn =>
    intro cs hsz D pp ctx k v h
    cases cs with
    | nil => simp [mirrorForest] at h
    | cons c rest =>
      have hrest : sizeOf rest ≤ n := sizeOf_tail_le c rest n hsz
      cases c with
      | statError msg => simp [mirrorForest] at h
      | file n2 i s =>
        simp only [mirrorForest, emLookup_cons] at h
        by_cases hk : i = k
        · simp [forestInos, hk]
        · simp only [if_neg hk] at h
          simp [forestInos, ihn rest hrest D pp ctx k v h]
      | dir n2 i s re gcs =>
        have hgcs : sizeOf gcs ≤ n := sizeOf_gcs_le n2 i s re gcs rest n hsz
        simp only [mirrorForest, emLookup_cons, emLookup_append] at h
        by_cases hk : i = k
        · simp [forestInos, hk]
        · simp only [if_neg hk] at h
          cases hA : emLookup k (mirrorForest eng i (pp ++ [n2])
              (deriveDirIgnore eng ctx (pp ++ [n2]) n2).2 gcs) with
          | some w =>
            have := ihn gcs hgcs i (pp ++ [n2]) _ k w hA
            simp [forestInos, this]
          | none =>
            rw [hA] at h
            simp only at h
            have := ihn rest hrest D pp ctx k v h
            simp [forestInos, this]

theorem mirrorForest_none {I : Type} (eng : IgnoreEngine I) (cs : List FsNode)
    (D : Nat) (pp : List String) (ctx : Option I) (k : Nat)
    (hk : k ∉ forestInos cs) : emLookup k (mirrorForest eng D pp ctx cs) = none := by
  cases hv : emLookup k (mirrorForest eng D pp ctx cs) with
  | none => rfl
  | some v =>
    exact absurd (mirrorForest_keys eng (sizeOf cs) cs le_rfl D pp ctx k v hv) hk

theorem deepMirror_keys {I : Type} (eng : IgnoreEngine I) :
    ∀ (cs : List FsNode) (pp : List String) (ctx : Option I) (k : Nat) (v : Entry),
      emLookup k (deepMirror eng pp ctx cs) = some v → k ∈ forestInos cs := by
  intro cs
  induction cs with
  | nil => intro pp ctx k v h; simp [deepMirror] at h
  | cons c rest ih =>
    intro pp ctx k v h
    cases c with
    | statError msg => simp [deepMirror] at h
    | file n i s =>
      simp only [deepMirror] at h
      simp [forestInos, ih pp ctx k v h]
    | dir n i s re gcs =>
      simp only [deepMirror, emLookup_append] at h
      cases hA : emLookup k (mirrorForest eng i (pp ++ [n])
          (deriveDirIgnore eng ctx (pp ++ [n]) n).2 gcs) with
      | some w =>
        have := mirrorForest_keys eng (sizeOf gcs) gcs le_rfl i (pp ++ [n]) _ k w hA
        simp [forestInos, this]
      | none =>
        rw [hA] at h
        simp only at h
        simp [forestInos, ih pp ctx k v h]

theorem deepMirror_none {I : Type} (eng : IgnoreEngine I) (cs : List FsNode)
    (pp : List String) (ctx : Option I) (k : Nat)
    (hk : k ∉ forestInos cs) : emLookup k (deepMirror eng pp ctx cs) = none := by
  cases hv : emLookup k (deepMirror eng pp ctx cs) with
  | none => rfl
  | some v => exact absurd (deepMirror_keys eng cs pp ctx k v hv) hk

theorem deepMirror_top_none {I : Type} (eng : IgnoreEngine I) :
    ∀ (cs : List FsNode), (forestInos cs).Nodup →
      ∀ (pp : List String) (ctx : Option I) (k : Nat), k ∈ topInos cs →
        emLookup k (deepMirror eng pp ctx cs) = none := by
  intro cs
  induction cs with
  | nil => intro _ pp ctx k hk; simp [topInos] at hk
  | cons c rest ih =>
    intro hnd pp ctx k hk
    cases c with
    | statError msg => simp [topInos] at hk
    | file n i s =>
      simp only [forestInos, List.nodup_cons] at hnd
      simp only [topInos, List.mem_cons] at hk
      simp only [deepMirror]
      rcases hk with hk | hk
      · subst hk
        exact deepMirror_none eng rest pp ctx k hnd.1
      · exact ih hnd.2 pp ctx k hk
    | dir n i s re gcs =>
      obtain ⟨hndg, hndr, hig, hir, hdisj⟩ := nodup_dir_parts n i s re gcs rest hnd
      simp only [topInos, List.mem_cons] at hk
      simp only [deepMirror, emLookup_append]
      rcases hk with hk | hk
      · subst hk
        rw [mirrorForest_none eng gcs k (pp ++ [n]) _ k hig]
        exact deepMirror_none eng rest pp ctx k hir
      · have hkr : k ∈ forestInos rest := topInos_sub_forestInos rest k hk
        have hkg : k ∉ forestInos gcs := fun hm => hdisj k hm hkr
        rw [mirrorForest_none eng gcs i (pp ++ [n]) _ k hkg]
        exact ih hndr pp ctx k hk

theorem insertChildren_lookup {I : Type} (eng : IgnoreEngine I) (D : Nat)
    (pp rp : List String) (ctx : Option I) :
    ∀ (cs : List FsNode), (topInos cs).Nodup → ∀ (st : WorktreeState) (k : Nat),
      emLookup k (insertChildren eng D pp rp ctx cs st).1.entries =
        match emLookup k (topMirror0 eng D pp ctx cs) with
        | some v => some v
        | none => emLookup k st.entries := by
  intro cs
  induction cs with
  | nil => intro _ st k; rfl
  | cons c rest ih =>
    intro hnd st k
    cases c with
    | statError msg => rfl
    | file n i s =>
      simp only [topInos, List.nodup_cons] at hnd
      simp only [insertChildren, topMirror0, emLookup_cons]
      rw [ih hnd.2]
      have hst1 : emLookup k (insertFile st (some D) n i s
          (fileIgnored eng ctx (pp ++ [n])) (rp ++ [n])).entries =
          if k = i then some (.file (some D) n i s (fileIgnored eng ctx (pp ++ [n])))
          else emLookup k st.entries := by
        simp only [insertFile]
        exact emLookup_insert st.entries i _ k
      rw [hst1]
      by_cases hk : i = k
      · subst hk
        rw [topMirror0_none eng D pp ctx rest i hnd.1]
        simp
      · cases hT : emLookup k (topMirror0 eng D pp ctx rest) with
        | some v => simp [hk]
        | none => simp [hk, Ne.symm hk]
    | dir n i s re gcs =>
      simp only [topInos, List.nodup_cons] at hnd
      simp only [insertChildren, topMirror0, emLookup_cons]
      rw [ih hnd.2]
      have hst1 : emLookup k (insertDir st (some D) n i s
          (deriveDirIgnore eng ctx (pp ++ [n]) n).1).entries =
          if k = i then some (.dir (some D) n i s
            (deriveDirIgnore eng ctx (pp ++ [n]) n).1 [])
          else emLookup k st.entries := by
        simp only [insertDir]
        exact emLookup_insert st.entries i _ k
      rw [hst1]
      by_cases hk : i = k
      · subst hk
        rw [topMirror0_none eng D pp ctx rest i hnd.1]
        simp
      · cases hT : emLookup k (topMirror0 eng D pp ctx rest) with
        | some v => simp [hk]
        | none => simp [hk, Ne.symm hk]

theorem mirror_decomposition {I : Type} (eng : IgnoreEngine I) :
    ∀ (cs : List FsNode), (forestInos cs).Nodup →
      ∀ (D : Nat) (pp : List String) (ctx : Option I) (k : Nat),
        emLookup k (mirrorForest eng D pp ctx cs) =
          match emLookup k (topMirror0 eng D pp ctx cs) with
          | some v => some (finalizedAt cs k v)
          | none => emLookup k (deepMirror eng pp ctx cs) := by
  intro cs
  induction cs with
  | nil =>
    intro _ D pp ctx k
    simp [mirrorForest, topMirror0, deepMirror]
  | cons c rest ih =>
    intro hnd D pp ctx k
    cases c with
    | statError msg => simp [mirrorForest, topMirror0, deepMirror]
    | file n i s =>
      simp only [forestInos, List.nodup_cons] at hnd
      simp only [mirrorForest, topMirror0, deepMirror, emLookup_cons]
      by_cases hk : i = k
      · subst hk
        simp [finalizedAt,
          finalizedAt_id rest i (fun hm => hnd.1 (topInos_sub_forestInos rest i hm))]
      · simp only [if_neg hk, finalizedAt]
        exact ih hnd.2 D pp ctx k
    | dir n i s re gcs =>
      obtain ⟨hndg, hndr, hig, hir, hdisj⟩ := nodup_dir_parts n i s re gcs rest hnd
      simp only [mirrorForest, topMirror0, deepMirror, emLookup_cons, emLookup_append]
      by_cases hk : i = k
      · subst hk
        simp [finalizedAt]
      · simp only [if_neg hk]
        cases hT : emLookup k (topMirror0 eng D pp ctx rest) with
        | some v =>
          have hktop : k ∈ topInos rest := topMirror0_keys eng D pp ctx rest k v hT
          have hkr : k ∈ forestInos rest := topInos_sub_forestInos rest k hktop
          have hkg : k ∉ forestInos gcs := fun hm => hdisj k hm hkr
          have hr2 := ih hndr D pp ctx k
          rw [hT] at hr2
          rw [mirrorForest_none eng gcs i (pp ++ [n]) _ k hkg]
          simp only [finalizedAt, if_neg (Ne.symm hk)]
          exact hr2
        | none =>
          cases hA : emLookup k (mirrorForest eng i (pp ++ [n])
              (deriveDirIgnore eng ctx (pp ++ [n]) n).2 gcs) with
          | some w => rfl
          | none =>
            have hr2 := ih hndr D pp ctx k
            rw [hT] at hr2
            exact hr2

theorem scanSubdirs_cons_dir_none_fst {I : Type} (eng : IgnoreEngine I)
    (pp rp : List String) (ctx : Option I) (name : String) (ino : Nat) (sym : Bool)
    (gcs rest : List FsNode) (st : WorktreeState) :
    (scanSubdirs eng pp rp ctx (.dir name ino sym none gcs :: rest) st).1 =
      (scanSubdirs eng pp rp ctx rest
        (scanDirLevel eng ino (pp ++ [name]) (rp ++ [name])
          (deriveDirIgnore eng ctx (pp ++ [name]) name).2 none gcs st).1).1 := by
  simp only [scanSubdirs, scanDirLevel]

theorem scanSubdirs_no_errors {I : Type} (eng : IgnoreEngine I) :
    ∀ (n : Nat) (cs : List FsNode), sizeOf cs ≤ n → forestOk cs = true →
      ∀ (pp rp : List String) (ctx : Option I) (st : WorktreeState),
        (scanSubdirs eng pp rp ctx cs st).2 = [] := by
  intro n
  induction n with
  | zero =>
    intro cs hsz
    exfalso
    cases cs with
    | nil => simp only [List.nil.sizeOf_spec] at hsz; omega
    | cons c rest => simp only [List.cons.sizeOf_spec] at hsz; omega
  | succ n ihn =>
    intro cs hsz hok pp rp ctx st
    cases cs with
    | nil => simp [scanSubdirs]
    | cons c rest =>
      have hrest : sizeOf rest ≤ n := sizeOf_tail_le c rest n hsz
      cases c with
      | statError msg => simp [forestOk] at hok
      | file name ino sym =>
        simp only [forestOk] at hok
        simp only [scanSubdirs]
        exact ihn rest hrest hok pp rp ctx st
      | dir name ino sym readErr gcs =>
        have hgcs : sizeOf gcs ≤ n := sizeOf_gcs_le name ino sym readErr gcs rest n hsz
        obtain ⟨hre, hokg, hokr⟩ := forestOk_dir_parts name ino sym readErr gcs rest hok
        subst hre
        simp only [scanSubdirs]
        have h1 := insertChildren_ok eng ino (pp ++ [name]) (rp ++ [name])
          ((deriveDirIgnore eng ctx (pp ++ [name]) name).2) gcs
          (forestOk_statOk gcs hokg) st
        rw [h1.1, ihn gcs hgcs hokg _ _ _ _, ihn rest hrest hokr _ _ _ _]
        rfl

theorem scanDirLevel_no_errors {I : Type} (eng : IgnoreEngine I) (ino : Nat)
    (path rel : List String) (ctx : Option I) (cs : List FsNode)
    (st : WorktreeState) (hok : forestOk cs = true) :
    (scanDirLevel eng ino path rel ctx none cs st).2 = [] := by
  simp only [scanDirLevel]
  have h1 := insertChildren_ok eng ino path rel ctx cs (forestOk_statOk cs hok) st
  rw [h1.1, scanSubdirs_no_errors eng (sizeOf cs) cs le_rfl hok path rel ctx _]
  rfl

theorem scanDirLevel_lookup_of {I : Type} (eng : IgnoreEngine I) (D : Nat)
    (pp rp : List String) (ctx : Option I) (cs : List FsNode)
    (hok : forestOk cs = true) (hnd : (forestInos cs).Nodup) (hD : D ∉ forestInos cs)
    (hMS : ∀ (st : WorktreeState) (k : Nat),
      emLookup k (scanSubdirs eng pp rp ctx cs st).1.entries =
        match emLookup k (deepMirror eng pp ctx cs) with
        | some v => some v
        | none => (emLookup k st.entries).map (fun e => finalizedAt cs k e)) :
    ∀ (st : WorktreeState) (k : Nat),
      emLookup k (scanDirLevel eng D pp rp ctx none cs st).1.entries =
        match emLookup k (mirrorForest eng D pp ctx cs) with
        | some v => some v
        | none =>
            if k = D then
              (emLookup k st.entries).map (fun e =>
                match e with
                | Entry.dir par n j sym ig _ => Entry.dir par n j sym ig (topInos cs)
                | e' => e')
            else emLookup k st.entries := by
  intro st k
  have hndt : (topInos cs).Nodup := nodup_top_of_forest cs hnd
  have hic := insertChildren_ok eng D pp rp ctx cs (forestOk_statOk cs hok) st
  simp only [scanDirLevel]
  rw [if_pos hic.1, hMS]
  rw [mirror_decomposition eng cs hnd D pp ctx k]
  have hset : emLookup k (emSetChildren
      (insertChildren eng D pp rp ctx cs st).1.entries D
      (insertChildren eng D pp rp ctx cs st).2.1) =
      (emLookup k (insertChildren eng D pp rp ctx cs st).1.entries).map (fun v =>
        if k = D then
          match v with
          | Entry.dir par n j sym ig _ => Entry.dir par n j sym ig
              (insertChildren eng D pp rp ctx cs st).2.1
          | e => e
        else v) :=
    emLookup_setChildren _ D _ k
  rw [hset, hic.2, insertChildren_lookup eng D pp rp ctx cs hndt st k]
  cases hT : emLookup k (topMirror0 eng D pp ctx cs) with
  | some v =>
    have hktop : k ∈ topInos cs := topMirror0_keys eng D pp ctx cs k v hT
    have hkD : ¬ k = D := fun he =>
      hD (he ▸ topInos_sub_forestInos cs k hktop)
    rw [deepMirror_top_none eng cs hnd pp ctx k hktop]
    simp [hkD]
  | none =>
    cases hDp : emLookup k (deepMirror eng pp ctx cs) with
    | some w => simp
    | none =>
      by_cases hkD : k = D
      · subst hkD
        have hfin := finalizedAt_id cs k
          (fun hm => hD (topInos_sub_forestInos cs k hm))
        cases hA : emLookup k st.entries with
        | none => simp
        | some e => simp [hfin]
      · have hktop : k ∉ topInos cs := by
          intro hm
          have := topMirror0_total eng D pp ctx cs k hm
          rw [hT] at this
          simp at this
        have hfin := finalizedAt_id cs k hktop
        cases hA : emLookup k st.entries with
        | none => simp [hkD]
        | some e => simp [hkD, hfin]

theorem scanSubdirs_lookup {I : Type} (eng : IgnoreEngine I) :
    ∀ (n : Nat) (cs : List FsNode), sizeOf cs ≤ n → forestOk cs = true →
      (forestInos cs).Nodup →
      ∀ (pp rp : List String) (ctx : Option I) (st : WorktreeState) (k : Nat),
        emLookup k (scanSubdirs eng pp rp ctx cs st).1.entries =
          match emLookup k (deepMirror eng pp ctx cs) with
          | some v => some v
          | none => (emLookup k st.entries).map (fun e => finalizedAt cs k e) := by
  intro n
  induction n with
  | zero =>
    intro cs hsz
    exfalso
    cases cs with
    | nil => simp only [List.nil.sizeOf_spec] at hsz; omega
    | cons c rest => simp only [List.cons.sizeOf_spec] at hsz; omega
  | succ n ihn =>
    intro cs hsz hok hnd pp rp ctx st k
    cases cs with
    | nil =>
      cases hA : emLookup k st.entries <;>
        simp [scanSubdirs, deepMirror, hA, finalizedAt]
    | cons c rest =>
      have hrest : sizeOf rest ≤ n := sizeOf_tail_le c rest n hsz
      cases c with
      | statError msg => simp [forestOk] at hok
      | file name ino sym =>
        simp only [forestOk] at hok
        simp only [forestInos, List.nodup_cons] at hnd
        simp only [scanSubdirs, deepMirror, finalizedAt]
        exact ihn rest hrest hok hnd.2 pp rp ctx st k
      | dir name ino sym readErr gcs =>
        have hgcs : sizeOf gcs ≤ n := sizeOf_gcs_le name ino sym readErr gcs rest n hsz
        obtain ⟨hre, hokg, hokr⟩ := forestOk_dir_parts name ino sym readErr gcs rest hok
        obtain ⟨hndg, hndr, hig, hir, hdisj⟩ := nodup_dir_parts name ino sym readErr gcs rest hnd
        subst hre
        rw [scanSubdirs_cons_dir_none_fst]
        rw [ihn rest hrest hokr hndr pp rp ctx _ k]
        have hMD := scanDirLevel_lookup_of eng ino (pp ++ [name]) (rp ++ [name])
          ((deriveDirIgnore eng ctx (pp ++ [name]) name).2) gcs hokg hndg hig
          (fun st2 k2 => ihn gcs hgcs hokg hndg (pp ++ [name]) (rp ++ [name]) _ st2 k2)
          st k
        rw [hMD]
        simp only [deepMirror, emLookup_append]
        cases hA : emLookup k (mirrorForest eng ino (pp ++ [name])
            (deriveDirIgnore eng ctx (pp ++ [name]) name).2 gcs) with
        | some w =>
          have hkg : k ∈ forestInos gcs :=
            mirrorForest_keys eng (sizeOf gcs) gcs le_rfl ino (pp ++ [name]) _ k w hA
          have hkr : k ∉ forestInos rest := hdisj k hkg
          have hki : ¬ k = ino := fun he => hig (he ▸ hkg)
          rw [deepMirror_none eng rest pp ctx k hkr]
          have hfr := finalizedAt_id rest k
            (fun hm => hkr (topInos_sub_forestInos rest k hm))
          simp [hfr]
        | none =>
          cases hB : emLookup k (deepMirror eng pp ctx rest) with
          | some w => simp
          | none =>
            by_cases hki : k = ino
            · subst hki
              have hfr := finalizedAt_id rest k
                (fun hm => hir (topInos_sub_forestInos rest k hm))
              simp only [if_pos rfl]
              cases hC : emLookup k st.entries with
              | none => simp
              | some e => simp [hfr, finalizedAt]
            · simp only [if_neg hki]
              cases hC : emLookup k st.entries with
              | none => simp
              | some e => simp [finalizedAt, hki, Ne.symm]

theorem mirror_top_parent {I : Type} (eng : IgnoreEngine I) :
    ∀ (cs : List FsNode), (forestInos cs).Nodup →
      ∀ (D : Nat) (pp : List String) (ctx : Option I) (c : Nat), c ∈ topInos cs →
        ∃ ec, emLookup c (mirrorForest eng D pp ctx cs) = some ec ∧
          ec.parent = some D := by
  intro cs
  induction cs with
  | nil => intro _ D pp ctx c hc; simp [topInos] at hc
  | cons x rest ih =>
    intro hnd D pp ctx c hc
    cases x with
    | statError msg => simp [topInos] at hc
    | file n i s =>
      simp only [forestInos, List.nodup_cons] at hnd
      simp only [topInos, List.mem_cons] at hc
      rcases hc with hc | hc
      · subst hc
        refine ⟨Entry.file (some D) n c s (fileIgnored eng ctx (pp ++ [n])), ?_, rfl⟩
        simp [mirrorForest]
      · have hcr : c ∈ forestInos rest := topInos_sub_forestInos rest c hc
        have hci : ¬ i = c := fun he => hnd.1 (he ▸ hcr)
        obtain ⟨ec, hec, hp⟩ := ih hnd.2 D pp ctx c hc
        refine ⟨ec, ?_, hp⟩
        simp only [mirrorForest, emLookup_cons]
        rw [if_neg hci]
        exact hec
    | dir n i s re gcs =>
      obtain ⟨hndg, hndr, hig, hir, hdisj⟩ := nodup_dir_parts n i s re gcs rest hnd
      simp only [topInos, List.mem_cons] at hc
      rcases hc with hc | hc
      · subst hc
        refine ⟨Entry.dir (some D) n c s (deriveDirIgnore eng ctx (pp ++ [n]) n).1
          (topInos gcs), ?_, rfl⟩
        simp [mirrorForest]
      · have hcr : c ∈ forestInos rest := topInos_sub_forestInos rest c hc
        have hci : ¬ i = c := fun he => hir (he ▸ hcr)
        have hcg : c ∉ forestInos gcs := fun hm => hdisj c hm hcr
        obtain ⟨ec, hec, hp⟩ := ih hndr D pp ctx c hc
        refine ⟨ec, ?_, hp⟩
        simp only [mirrorForest, emLookup_cons, emLookup_append]
        rw [if_neg hci, mirrorForest_none eng gcs i (pp ++ [n]) _ c hcg]
        exact hec

theorem mirror_children_linked {I : Type} (eng : IgnoreEngine I) :
    ∀ (nn : Nat) (cs : List FsNode), sizeOf cs ≤ nn → forestOk cs = true →
      (forestInos cs).Nodup →
      ∀ (D : Nat) (pp : List String) (ctx : Option I) (k : Nat) (e : Entry),
        emLookup k (mirrorForest eng D pp ctx cs) = some e →
        ∀ c ∈ e.childList, ∃ ec, emLookup c (mirrorForest eng D pp ctx cs) = some ec ∧
          ec.parent = some k := by
  intro nn
  induction nn with
  | zero =>
    intro cs hsz
    exfalso
    cases cs with
    | nil => simp only [List.nil.sizeOf_spec] at hsz; omega
    | cons c rest => simp only [List.cons.sizeOf_spec] at hsz; omega
  | succ nn ihn =>
    intro cs hsz hok hnd D pp ctx k e hke c hc
    cases cs with
    | nil => simp [mirrorForest] at hke
    | cons x rest =>
      have hrest : sizeOf rest ≤ nn := sizeOf_tail_le x rest nn hsz
      cases x with
      | statError msg => simp [forestOk] at hok
      | file n i s =>
        simp only [forestOk] at hok
        simp only [forestInos, List.nodup_cons] at hnd
        simp only [mirrorForest, emLookup_cons] at hke
        by_cases hik : i = k
        · rw [if_pos hik] at hke
          have he : e = Entry.file (some D) n i s (fileIgnored eng ctx (pp ++ [n])) :=
            (Option.some.inj hke).symm
          subst he
          simp [Entry.childList] at hc
        · rw [if_neg hik] at hke
          obtain ⟨ec, hec, hp⟩ := ihn rest hrest hok hnd.2 D pp ctx k e hke c hc
          have hcr := mirrorForest_keys eng (sizeOf rest) rest le_rfl D pp ctx c ec hec
          have hci : ¬ i = c := fun he => hnd.1 (he ▸ hcr)
          refine ⟨ec, ?_, hp⟩
          simp only [mirrorForest, emLookup_cons]
          rw [if_neg hci]
          exact hec
      | dir n i s re gcs =>
        have hgcs : sizeOf gcs ≤ nn := sizeOf_gcs_le n i s re gcs rest nn hsz
        obtain ⟨hre, hokg, hokr⟩ := forestOk_dir_parts n i s re gcs rest hok
        obtain ⟨hndg, hndr, hig, hir, hdisj⟩ := nodup_dir_parts n i s re gcs rest hnd
        simp only [mirrorForest, emLookup_cons, emLookup_append] at hke
        by_cases hik : i = k
        · rw [if_pos hik] at hke
          have he : e = Entry.dir (some D) n i s
              (deriveDirIgnore eng ctx (pp ++ [n]) n).1 (topInos gcs) :=
            (Option.some.inj hke).symm
          subst he
          simp only [Entry.childList] at hc
          obtain ⟨ec, hec, hp⟩ := mirror_top_parent eng gcs hndg i (pp ++ [n])
            ((deriveDirIgnore eng ctx (pp ++ [n]) n).2) c hc
          have hcg := mirrorForest_keys eng (sizeOf gcs) gcs le_rfl i (pp ++ [n]) _ c ec hec
          have hci : ¬ i = c := fun he2 => hig (he2 ▸ hcg)
          refine ⟨ec, ?_, by rw [hp, hik]⟩
          simp only [mirrorForest, emLookup_cons, emLookup_append]
          rw [if_neg hci, hec]
        · rw [if_neg hik] at hke
          cases hA : emLookup k (mirrorForest eng i (pp ++ [n])
              (deriveDirIgnore eng ctx (pp ++ [n]) n).2 gcs) with
          | some w =>
            rw [hA] at hke
            simp only [Option.some.injEq] at hke
            subst hke
            obtain ⟨ec, hec, hp⟩ := ihn gcs hgcs hokg hndg i (pp ++ [n]) _ k w hA c hc
            have hcg := mirrorForest_keys eng (sizeOf gcs) gcs le_rfl i (pp ++ [n]) _ c ec hec
            have hci : ¬ i = c := fun he2 => hig (he2 ▸ hcg)
            refine ⟨ec, ?_, hp⟩
            simp only [mirrorForest, emLookup_cons, emLookup_append]
            rw [if_neg hci, hec]
          | none =>
            rw [hA] at hke
            simp only at hke
            obtain ⟨ec, hec, hp⟩ := ihn rest hrest hokr hndr D pp ctx k e hke c hc
            have hcr := mirrorForest_keys eng (sizeOf rest) rest le_rfl D pp ctx c ec hec
            have hci : ¬ i = c := fun he2 => hir (he2 ▸ hcr)
            have hcg : c ∉ forestInos gcs := fun hm => hdisj c hm hcr
            refine ⟨ec, ?_, hp⟩
            simp only [mirrorForest, emLookup_cons, emLookup_append]
            rw [if_neg hci, mirrorForest_none eng gcs i (pp ++ [n]) _ c hcg]
            exact hec

theorem mirror_parent_shape {I : Type} (eng : IgnoreEngine I) :
    ∀ (nn : Nat) (cs : List FsNode), sizeOf cs ≤ nn → (forestInos cs).Nodup →
      ∀ (D : Nat) (pp : List String) (ctx : Option I) (k : Nat) (e : Entry),
        emLookup k (mirrorForest eng D pp ctx cs) = some e →
        (e.parent = some D ∧ k ∈ topInos cs) ∨
        (∃ p ep, e.parent = some p ∧
          emLookup p (mirrorForest eng D pp ctx cs) = some ep ∧
          ep.isDir = true ∧ k ∈ ep.childList) := by
  intro nn
  induction nn with
  | zero =>
    intro cs hsz
    exfalso
    cases cs with
    | nil => simp only [List.nil.sizeOf_spec] at hsz; omega
    | cons c rest => simp only [List.cons.sizeOf_spec] at hsz; omega
  | succ nn ihn =>
    intro cs hsz hnd D pp ctx k e hke
    cases cs with
    | nil => simp [mirrorForest] at hke
    | cons x rest =>
      have hrest : sizeOf rest ≤ nn := sizeOf_tail_le x rest nn hsz
      cases x with
      | statError msg => simp [mirrorForest] at hke
      | file n i s =>
        simp only [forestInos, List.nodup_cons] at hnd
        simp only [mirrorForest, emLookup_cons] at hke
        by_cases hik : i = k
        · rw [if_pos hik] at hke
          have he : e = Entry.file (some D) n i s (fileIgnored eng ctx (pp ++ [n])) :=
            (Option.some.inj hke).symm
          subst he
          exact Or.inl ⟨rfl, by simp [topInos, hik]⟩
        · rw [if_neg hik] at hke
          rcases ihn rest hrest hnd.2 D pp ctx k e hke with ⟨hp, htop⟩ | ⟨p, ep, hp, hep, hdir, hmem⟩
          · exact Or.inl ⟨hp, by simp [topInos, htop]⟩
          · have hpr := mirrorForest_keys eng (sizeOf rest) rest le_rfl D pp ctx p ep hep
            have hpi : ¬ i = p := fun he2 => hnd.1 (he2 ▸ hpr)
            refine Or.inr ⟨p, ep, hp, ?_, hdir, hmem⟩
            simp only [mirrorForest, emLookup_cons]
            rw [if_neg hpi]
            exact hep
      | dir n i s re gcs =>
        have hgcs : sizeOf gcs ≤ nn := sizeOf_gcs_le n i s re gcs rest nn hsz
        obtain ⟨hndg, hndr, hig, hir, hdisj⟩ := nodup_dir_parts n i s re gcs rest hnd
        simp only [mirrorForest, emLookup_cons, emLookup_append] at hke
        by_cases hik : i = k
        · rw [if_pos hik] at hke
          have he : e = Entry.dir (some D) n i s
              (deriveDirIgnore eng ctx (pp ++ [n]) n).1 (topInos gcs) :=
            (Option.some.inj hke).symm
          subst he
          exact Or.inl ⟨rfl, by simp [topInos, hik]⟩
        · rw [if_neg hik] at hke
          cases hA : emLookup k (mirrorForest eng i (pp ++ [n])
              (deriveDirIgnore eng ctx (pp ++ [n]) n).2 gcs) with
          | some w =>
            rw [hA] at hke
            simp only [Option.some.injEq] at hke
            subst hke
            rcases ihn gcs hgcs hndg i (pp ++ [n]) _ k w hA with ⟨hp, htop⟩ |
              ⟨p, ep, hp, hep, hdir, hmem⟩
            · refine Or.inr ⟨i, Entry.dir (some D) n i s
                (deriveDirIgnore eng ctx (pp ++ [n]) n).1 (topInos gcs), hp, ?_, rfl, htop⟩
              simp [mirrorForest, emLookup_cons]
            · have hpg := mirrorForest_keys eng (sizeOf gcs) gcs le_rfl i (pp ++ [n]) _ p ep hep
              have hpi : ¬ i = p := fun he2 => hig (he2 ▸ hpg)
              refine Or.inr ⟨p, ep, hp, ?_, hdir, hmem⟩
              simp only [mirrorForest, emLookup_cons, emLookup_append]
              rw [if_neg hpi, hep]
          | none =>
            rw [hA] at hke
            simp only at hke
            rcases ihn rest hrest hndr D pp ctx k e hke with ⟨hp, htop⟩ |
              ⟨p, ep, hp, hep, hdir, hmem⟩
            · exact Or.inl ⟨hp, by simp [topInos, htop]⟩
            · have hpr := mirrorForest_keys eng (sizeOf rest) rest le_rfl D pp ctx p ep hep
              have hpi : ¬ i = p := fun he2 => hir (he2 ▸ hpr)
              have hpg : p ∉ forestInos gcs := fun hm => hdisj p hm hpr
              refine Or.inr ⟨p, ep, hp, ?_, hdir, hmem⟩
              simp only [mirrorForest, emLookup_cons, emLookup_append]
              rw [if_neg hpi, mirrorForest_none eng gcs i (pp ++ [n]) _ p hpg]
              exact hep

/-- Referential integrity, direction 1: every id in any entry's child list
resolves to an entry whose parent is that entry's key. -/
def ChildrenLinked (m : EntryMap) : Prop :=
  ∀ k e, emLookup k m = some e → ∀ c ∈ e.childList,
    ∃ ec, emLookup c m = some ec ∧ ec.parent = some k

/-- Referential integrity, direction 2: every entry carrying a parent id
points at an existing directory entry that lists it as a child. -/
def ParentsLinked (m : EntryMap) : Prop :=
  ∀ k e p, emLookup k m = some e → e.parent = some p →
    ∃ ep, emLookup p m = some ep ∧ ep.isDir = true ∧ k ∈ ep.childList

theorem linked_of_mirror_shape {I : Type} (eng : IgnoreEngine I) (cs : List FsNode)
    (rino : Nat) (pp : List String) (ctx : Option I) (m : EntryMap)
    (hok : forestOk cs = true) (hnd2 : (forestInos cs).Nodup)
    (hnd1 : rino ∉ forestInos cs)
    (rootNm : String) (rootSym rootIg : Bool)
    (hF : ∀ k, emLookup k m =
      match emLookup k (mirrorForest eng rino pp ctx cs) with
      | some v => some v
      | none => if k = rino then
          some (.dir none rootNm rino rootSym rootIg (topInos cs)) else none) :
    ChildrenLinked m ∧ ParentsLinked m := by
  have hrootm : emLookup rino m =
      some (.dir none rootNm rino rootSym rootIg (topInos cs)) := by
    rw [hF rino, mirrorForest_none eng cs rino pp ctx rino hnd1]
    simp
  constructor
  · intro k e hke c hc
    rw [hF k] at hke
    cases hA : emLookup k (mirrorForest eng rino pp ctx cs) with
    | some v =>
      rw [hA] at hke
      simp only [Option.some.injEq] at hke
      subst hke
      obtain ⟨ec, hec, hpar⟩ := mirror_children_linked eng (sizeOf cs) cs le_rfl hok hnd2
        rino pp ctx k v hA c hc
      refine ⟨ec, ?_, hpar⟩
      rw [hF c, hec]
    | none =>
      rw [hA] at hke
      by_cases hk : k = rino
      · subst hk
        rw [if_pos rfl] at hke
        simp only [Option.some.injEq] at hke
        subst hke
        simp only [Entry.childList] at hc
        obtain ⟨ec, hec, hpar⟩ := mirror_top_parent eng cs hnd2 k pp ctx c hc
        refine ⟨ec, ?_, hpar⟩
        rw [hF c, hec]
      · rw [if_neg hk] at hke
        cases hke
  · intro k e p hke hpar
    rw [hF k] at hke
    cases hA : emLookup k (mirrorForest eng rino pp ctx cs) with
    | some v =>
      rw [hA] at hke
      simp only [Option.some.injEq] at hke
      subst hke
      rcases mirror_parent_shape eng (sizeOf cs) cs le_rfl hnd2 rino pp ctx k v hA with
        ⟨hpD, htop⟩ | ⟨p2, ep, hp2, hep, hdir, hmem⟩
      · rw [hpD] at hpar
        have hpr : rino = p := Option.some.inj hpar
        subst hpr
        exact ⟨_, hrootm, rfl, htop⟩
      · rw [hp2] at hpar
        have hpr : p2 = p := Option.some.inj hpar
        subst hpr
        refine ⟨ep, ?_, hdir, hmem⟩
        rw [hF p2, hep]
    | none =>
      rw [hA] at hke
      by_cases hk : k = rino
      · subst hk
        rw [if_pos rfl] at hke
        simp only [Option.some.injEq] at hke
        subst hke
        simp [Entry.parent] at hpar
      · rw [if_neg hk] at hke
        cases hke

theorem scanDirs_entries_lookup {I : Type} (eng : IgnoreEngine I) (nodeName : String)
    (rino : Nat) (sym : Bool) (cs : List FsNode) (wid : Nat) (path0 : List String)
    (hok : forestOk cs = true) (hnd1 : rino ∉ forestInos cs)
    (hnd2 : (forestInos cs).Nodup) :
    ∀ k, emLookup k (scanDirs eng (.dir nodeName rino sym none cs)
        (newState wid path0)).state.entries =
      match emLookup k (mirrorForest eng rino path0
          (some (eng.addChild (eng.baseFromParents path0) path0)) cs) with
      | some v => some v
      | none =>
          if k = rino then
            some (.dir none (rootName path0) rino sym
              (eng.isIgnoreMatch (eng.addChild (eng.baseFromParents path0) path0)
                path0 true || rootName path0 == ".git") (topInos cs))
          else none := by
  intro k
  have herr := scanDirLevel_no_errors eng rino path0 [rootName path0]
    (some (eng.addChild (eng.baseFromParents path0) path0)) cs
    (insertDir (newState wid path0) none (rootName path0) rino sym
      (eng.isIgnoreMatch (eng.addChild (eng.baseFromParents path0) path0) path0 true ||
        rootName path0 == ".git")) hok
  have hMD := scanDirLevel_lookup_of eng rino path0 [rootName path0]
    (some (eng.addChild (eng.baseFromParents path0) path0)) cs hok hnd2 hnd1
    (fun st2 k2 => scanSubdirs_lookup eng (sizeOf cs) cs le_rfl hok hnd2 path0
      [rootName path0] _ st2 k2)
    (insertDir (newState wid path0) none (rootName path0) rino sym
      (eng.isIgnoreMatch (eng.addChild (eng.baseFromParents path0) path0) path0 true ||
        rootName path0 == ".git")) k
  simp only [scanDirs, newState] at herr hMD ⊢
  rw [herr]
  refine Eq.trans hMD ?_
  cases hA : emLookup k (mirrorForest eng rino path0
      (some (eng.addChild (eng.baseFromParents path0) path0)) cs) with
  | some v => rfl
  | none =>
    by_cases hk : k = rino
    · subst hk
      simp [insertDir, newState, emInsert, emRemove, emLookup]
    · simp [insertDir, newState, emInsert, emRemove, emLookup, hk, Ne.symm hk]

/-- C7 amended: for a scan that completes without I/O errors and whose
discovered file-system identities (inode numbers) are pairwise distinct,
referential integrity holds in both directions: every id in any finalized
child list resolves to an entry whose parent id is the listing directory,
and every non-root entry's parent id refers to an existing directory entry
that lists it as a child.  The original unconditional claim fails on
errored scans (a child is inserted but its parent's listing is never
finalized) and on duplicated identities (hard links):
`scan_referential_integrity_cex`. -/
theorem scan_referential_integrity_amended :
    ∀ (I : Type) (eng : IgnoreEngine I) (nodeName : String) (rino : Nat) (sym : Bool)
      (cs : List FsNode) (wid : Nat) (path0 : List String),
      forestOk cs = true → (rino :: forestInos cs).Nodup →
      ChildrenLinked (scanDirs eng (.dir nodeName rino sym none cs)
        (newState wid path0)).state.entries ∧
      ParentsLinked (scanDirs eng (.dir nodeName rino sym none cs)
        (newState wid path0)).state.entries := by
  intro I eng nodeName rino sym cs wid path0 hok hnd
  have hnd1 : rino ∉ forestInos cs := (List.nodup_cons.mp hnd).1
  have hnd2 : (forestInos cs).Nodup := (List.nodup_cons.mp hnd).2
  exact linked_of_mirror_shape eng cs rino path0
    (some (eng.addChild (eng.baseFromParents path0) path0)) _ hok hnd2 hnd1
    (rootName path0) sym _
    (scanDirs_entries_lookup eng nodeName rino sym cs wid path0 hok hnd1 hnd2)

/-- C7 amended witness: an error-free scan with distinct inodes over
`r/x`, `r/a/y` satisfies both directions of referential integrity. -/
theorem scan_referential_integrity_amended_witness :
    ChildrenLinked (scanDirs noIgnoreEngine
      (.dir "r" 1 false none [.file "x" 2 false, .dir "a" 3 false none [.file "y" 4 false]])
      (newState 1 ["r"])).state.entries ∧
    ParentsLinked (scanDirs noIgnoreEngine
      (.dir "r" 1 false none [.file "x" 2 false, .dir "a" 3 false none [.file "y" 4 false]])
      (newState 1 ["r"])).state.entries :=
  scan_referential_integrity_amended Unit noIgnoreEngine "r" 1 false
    [.file "x" 2 false, .dir "a" 3 false none [.file "y" 4 false]] 1 ["r"]
    (by simp [forestOk]) (by simp [forestInos])

/-- A root whose listing hits a failing stat after its first file: the file
is inserted, but the root's children list is never finalized. -/
def brokenStatTree : FsNode :=
  .dir "r" 1 false none [.file "x" 2 false, .statError "estat"]

/-- A root with the same inode (a hard link) under two subdirectories. -/
def hardLinkTree : FsNode :=
  .dir "r" 1 false none
    [.dir "a" 2 false none [.file "f" 5 false],
     .dir "b" 3 false none [.file "g" 5 false]]

/-- C7 counterexample: the claim as stated fails on the code.  On
`brokenStatTree` the file entry 2 is inserted with parent 1, but the
errored listing never finalizes the root's child list, so no directory
lists entry 2 (the second clause fails).  On `hardLinkTree` the hard-linked
inode 5 is listed as a child of directory 2 but its entry ends up with
parent 3 — the last insert wins — so a finalized child list resolves to an
entry with a different parent (the first clause fails). -/
theorem scan_referential_integrity_cex :
    ¬ ParentsLinked (scanDirs noIgnoreEngine brokenStatTree
        (newState 1 ["r"])).state.entries ∧
    ¬ ChildrenLinked (scanDirs noIgnoreEngine hardLinkTree
        (newState 1 ["r"])).state.entries := by
  constructor
  · intro h
    have e2 : emLookup 2 (scanDirs noIgnoreEngine brokenStatTree
        (newState 1 ["r"])).state.entries = some (.file (some 1) "x" 2 false false) := by
      simp [scanDirs, scanDirLevel, insertChildren, scanSubdirs, insertFile, insertDir,
        fileIgnored, deriveDirIgnore, newState, rootName, emInsert, emRemove, emSetChildren,
        noIgnoreEngine, pathText, emLookup, brokenStatTree]
    have e1 : emLookup 1 (scanDirs noIgnoreEngine brokenStatTree
        (newState 1 ["r"])).state.entries = some (.dir none "r" 1 false false []) := by
      simp [scanDirs, scanDirLevel, insertChildren, scanSubdirs, insertFile, insertDir,
        fileIgnored, deriveDirIgnore, newState, rootName, emInsert, emRemove, emSetChildren,
        noIgnoreEngine, pathText, emLookup, brokenStatTree]
    obtain ⟨ep, hep, hdir, hmem⟩ := h 2 (.file (some 1) "x" 2 false false) 1 e2 rfl
    rw [e1] at hep
    have hepe : ep = Entry.dir none "r" 1 false false [] := (Option.some.inj hep).symm
    subst hepe
    simp [Entry.childList] at hmem
  · intro h
    have e2 : emLookup 2 (scanDirs noIgnoreEngine hardLinkTree
        (newState 1 ["r"])).state.entries = some (.dir (some 1) "a" 2 false false [5]) := by
      simp [scanDirs, scanDirLevel, insertChildren, scanSubdirs, insertFile, insertDir,
        fileIgnored, deriveDirIgnore, newState, rootName, emInsert, emRemove, emSetChildren,
        noIgnoreEngine, pathText, emLookup, hardLinkTree]
    have e5 : emLookup 5 (scanDirs noIgnoreEngine hardLinkTree
        (newState 1 ["r"])).state.entries = some (.file (some 3) "g" 5 false false) := by
      simp [scanDirs, scanDirLevel, insertChildren, scanSubdirs, insertFile, insertDir,
        fileIgnored, deriveDirIgnore, newState, rootName, emInsert, emRemove, emSetChildren,
        noIgnoreEngine, pathText, emLookup, hardLinkTree]
    obtain ⟨ec, hec, hpar⟩ := h 2 (.dir (some 1) "a" 2 false false [5]) e2 5
      (by simp [Entry.childList])
    rw [e5] at hec
    have hece : ec = Entry.file (some 3) "g" 5 false false := (Option.some.inj hec).symm
    subst hece
    simp [Entry.parent] at hpar

end Worktree
